import Mathlib

/-!
Verification of the Project-Nexus smart-city simulation backend
(fastapi-backend).  This file shallowly embeds the core components of the
code base — the city grid (core/city.py), the vehicle agent
(core/agent.py), the simulation-engine tick guard (core/simulation.py),
the CSP power allocator (ai/csp_engine.py), the Bayesian event predictor
(ai/bayesian.py) and the grid-graph search engine (core/graph.py,
ai/search.py) — and proves the specification claims about them.

Modelling conventions:
* Python ints are ℤ (ℕ for values that are always non-negative such as
  ticks and counters).  Python floats are modelled exactly over ℚ.
* Python dicts keyed by strings are modelled as total functions
  `String → ℤ` (resp. `Pos → Option ℚ`): the allocator's dict is
  initialised with the value 0 for every constraint id and only those
  keys are ever read or written, so a total function with default 0 is
  an exact model; the search's cost dict tracks definedness with Option.
* `heapq` is modelled by popping a minimal-priority element (leftmost
  among equal priorities); the verified cost property is independent of
  which minimal element the heap returns.
* The unbounded Python `while frontier` loops are given explicit fuel;
  the fuel is chosen larger than a strictly decreasing measure of the
  loop state, so it is never exhausted (proved below).
-/

set_option maxHeartbeats 1600000

namespace Nexus

/-- A grid position: a pair of integers, as the Python (x, y) tuples. -/
abbrev Pos : Type := ℤ × ℤ

/-- Grid cell types (core/city.py, CellType). -/
inductive CellType
  | road
  | building
  | park
  | restricted
deriving DecidableEq, Repr

/-- Weather conditions (core/city.py, Weather). -/
inductive Weather
  | clear
  | rain
  | snow
deriving DecidableEq, Repr

/-- Building categories (core/city.py, BuildingType). -/
inductive BuildingType
  | residential
  | commercial
  | industrial
  | hospital
  | fireStation
deriving DecidableEq, Repr

/-- A building (core/city.py, Building).  The presentation-only color
field is omitted. -/
structure Building where
  id : String
  type : BuildingType
  position : Pos
  powerRequirement : ℤ
  allocatedPower : ℤ := 0
deriving DecidableEq, Repr

/-- An emergency event (core/city.py, Emergency).  The type field is a
plain string ("accident" or "fire") exactly as in the source. -/
structure Emergency where
  id : String
  type : String
  position : Pos
  severity : ℤ
  createdTick : ℕ
  assignedVehicleId : Option String := none
  resolved : Bool := false
deriving DecidableEq, Repr

/-- The city state (core/city.py, City): cell grid (row-major, indexed
grid[y][x]), buildings, emergencies, the set of blocked roads (a list
used only through membership, insertion and removal) and the weather. -/
structure CityState where
  size : ℕ
  grid : List (List CellType)
  buildings : List Building
  emergencies : List Emergency
  blockedRoads : List Pos
  weather : Weather
deriving DecidableEq, Repr

/-- Cell lookup grid[y][x].  City always builds a full size × size grid;
an out-of-shape access defaults to a non-walkable cell (it can only be
reached behind the bounds check of is_walkable, which already fails). -/
def CityState.cellAt (c : CityState) (x y : ℤ) : CellType :=
  (c.grid.getD y.toNat []).getD x.toNat CellType.building

/-- City.is_walkable: in bounds, not blocked and on a road or park cell. -/
def CityState.isWalkable (c : CityState) (x y : ℤ) : Bool :=
  (decide (0 ≤ x) && decide (x < (c.size : ℤ)) &&
   decide (0 ≤ y) && decide (y < (c.size : ℤ))) &&
  !(c.blockedRoads.contains (x, y)) &&
  (c.cellAt x y == CellType.road || c.cellAt x y == CellType.park)

/-- is_walkable applied to a position pair. -/
def CityState.walkableP (c : CityState) (p : Pos) : Bool :=
  c.isWalkable p.1 p.2

/-- The four orthogonal direction offsets, in source order N, E, S, W
(core/graph.py, GridGraph._get_neighbors; the engine builds its graph
with allow_diagonals = False, so the diagonal extension is dead code). -/
def directions : List Pos := [(0, -1), (1, 0), (0, 1), (-1, 0)]

/-- GridGraph.get_neighbors in the engine's non-diagonal mode: the
orthogonal cells that are currently walkable, computed live from the
city (the public get_neighbors re-filters _get_neighbors by is_walkable;
both filters are the same predicate, i.e. one filter). -/
def getNeighbors (c : CityState) (p : Pos) : List Pos :=
  (directions.map (fun d => (p.1 + d.1, p.2 + d.2))).filter
    (fun q => c.walkableP q)

/-- City.get_weather_modifier. -/
def weatherModifier (c : CityState) : ℚ :=
  match c.weather with
  | .clear => 1
  | .rain => 5 / 2
  | .snow => 3

/-- The uniform per-step movement cost (GridGraph.get_cost body in
non-diagonal mode): base cost 1.0 scaled by the weather term. -/
def stepCost (c : CityState) : ℚ :=
  1 * (1 + (weatherModifier c - 1) * (3 / 10))

/-- GridGraph.get_cost: in non-diagonal mode the positions are unused
and the cost is the uniform step cost. -/
def getCost (c : CityState) (_fromPos _toPos : Pos) : ℚ :=
  stepCost c

/-- GridGraph.heuristic in non-diagonal mode: Manhattan distance. -/
def heuristic (p q : Pos) : ℚ :=
  (((p.1 - q.1).natAbs + (p.2 - q.2).natAbs : ℕ) : ℚ)

/-! ### Vehicle agent (core/agent.py) -/

/-- Vehicle categories (core/agent.py, VehicleType). -/
inductive VehicleType
  | normal
  | ambulance
  | fireTruck
deriving DecidableEq, Repr

/-- Vehicle operational status (core/agent.py, VehicleStatus). -/
inductive VehicleStatus
  | idle
  | moving
  | responding
  | stuck
  | charging
deriving DecidableEq, Repr

/-- A vehicle agent (core/agent.py, Vehicle).  The float stats speed,
health and energy are not read or written by the verified operations
and are omitted. -/
structure Vehicle where
  id : String
  type : VehicleType
  position : Pos
  destination : Option Pos := none
  path : List Pos := []
  status : VehicleStatus := .idle
  stuckCounter : ℕ := 0
  activeMission : Option String := none
deriving DecidableEq, Repr

/-- Vehicle.move_along_path (core/agent.py lines 77–102): move one step
along the path; returns the updated vehicle and the reached-destination
flag. -/
def Vehicle.moveAlongPath (v : Vehicle) : Vehicle × Bool :=
  match v.path with
  | [] => ({ v with status := .idle }, true)
  | nextPos :: rest =>
    let v1 : Vehicle :=
      { v with position := nextPos, path := rest,
               status := .moving, stuckCounter := 0 }
    if rest.isEmpty then
      ({ v1 with status := .idle, destination := none }, true)
    else
      (v1, false)

/-- Vehicle.set_path (core/agent.py lines 104–112): the path is stored
unconditionally; a non-empty path also sets the destination to its last
element and the status to Moving. -/
def Vehicle.setPath (v : Vehicle) (p : List Pos) : Vehicle :=
  match p.getLast? with
  | some d => { v with path := p, destination := some d, status := .moving }
  | none => { v with path := p }

/-- Iterate move_along_path n times, collecting the returned flags in
call order. -/
def Vehicle.runMoves (v : Vehicle) : ℕ → Vehicle × List Bool
  | 0 => (v, [])
  | n + 1 =>
    let step := v.moveAlongPath
    let restRun := step.1.runMoves n
    (restRun.1, step.2 :: restRun.2)

/-! ### City-mutating operations (core/city.py, core/simulation.py) -/

/-- The loop body of City.resolve_emergency: mark the first emergency
with the given id resolved, leaving the rest untouched (the Python loop
breaks after the first match). -/
def markResolvedFirst : List Emergency → String → List Emergency
  | [], _ => []
  | e :: rest, eid =>
    if e.id = eid then { e with resolved := true } :: rest
    else e :: markResolvedFirst rest eid

/-- City.unblock_road: remove the position from the blocked set. -/
def CityState.unblockRoad (c : CityState) (p : Pos) : CityState :=
  { c with blockedRoads := c.blockedRoads.filter (fun q => q ≠ p) }

/-- City.block_road: add the position to the blocked set. -/
def CityState.blockRoad (c : CityState) (p : Pos) : CityState :=
  { c with blockedRoads := p :: c.blockedRoads }

/-- City.resolve_emergency (lines 255–264): mark the first matching
emergency resolved and, if it is an accident, unblock its position. -/
def CityState.resolveEmergency (c : CityState) (eid : String) : CityState :=
  match c.emergencies.find? (fun e => e.id = eid) with
  | none => c
  | some e =>
    let c1 := { c with emergencies := markResolvedFirst c.emergencies eid }
    if e.type = "accident" then c1.unblockRoad e.position else c1

/-- City.spawn_emergency with the randomly drawn candidate position and
severity given explicitly: if the candidate position is walkable the
new emergency is appended with resolved = false, otherwise (bounded
retries exhausted) the city is unchanged. -/
def CityState.spawnEmergency (c : CityState) (etype : String) (tick : ℕ)
    (p : Pos) (sev : ℤ) : CityState :=
  if c.walkableP p then
    { c with emergencies := c.emergencies ++
        [{ id := etype ++ "_" ++ toString tick, type := etype,
           position := p, severity := sev, createdTick := tick }] }
  else c

/-- Python's str.lower() on the ASCII strings used here, modelled as
per-character lowering (String.toLower does the same but is opaque to
kernel reduction). -/
def lowerStr (s : String) : String :=
  ⟨s.data.map Char.toLower⟩

/-- City.set_weather: unrecognised strings default to Clear. -/
def weatherOfString (s : String) : Weather :=
  if lowerStr s = "clear" then .clear
  else if lowerStr s = "rain" then .rain
  else if lowerStr s = "snow" then .snow
  else .clear

/-- City.set_weather. -/
def CityState.setWeatherOp (c : CityState) (s : String) : CityState :=
  { c with weather := weatherOfString s }

/-- The engine's dispatch writes emergency.assigned_vehicle_id on the
dispatched emergency; modelled as updating the first emergency with the
given id. -/
def assignVehicleFirst : List Emergency → String → String → List Emergency
  | [], _, _ => []
  | e :: rest, eid, vid =>
    if e.id = eid then { e with assignedVehicleId := some vid } :: rest
    else e :: assignVehicleFirst rest eid vid

/-- Dispatch's emergency.assigned_vehicle_id assignment. -/
def CityState.assignVehicle (c : CityState) (eid vid : String) : CityState :=
  { c with emergencies := assignVehicleFirst c.emergencies eid vid }

/-- CSPEngine._apply_allocation: the allocator run writes each
building's allocated_power (every building id is a key of the
allocation dict, which is initialised from the same building list). -/
def CityState.applyAllocation (c : CityState) (alloc : String → ℤ) : CityState :=
  { c with buildings :=
      c.buildings.map (fun b => { b with allocatedPower := alloc b.id }) }

/-- The city-mutating operations performed by engine operations (tick
updates, emergency dispatch, resolve_emergency, allocator runs and
weather changes).  Every write the engine performs on the city state
factors through these constructors. -/
inductive CityOp
  | resolve (eid : String)
  | spawn (etype : String) (tick : ℕ) (p : Pos) (sev : ℤ)
  | block (p : Pos)
  | unblock (p : Pos)
  | setWeather (s : String)
  | assign (eid vid : String)
  | alloc (f : String → ℤ)

/-- Apply one city operation. -/
def CityState.applyOp (c : CityState) : CityOp → CityState
  | .resolve eid => c.resolveEmergency eid
  | .spawn t k p s => c.spawnEmergency t k p s
  | .block p => c.blockRoad p
  | .unblock p => c.unblockRoad p
  | .setWeather s => c.setWeatherOp s
  | .assign e v => c.assignVehicle e v
  | .alloc f => c.applyAllocation f

/-- Apply a sequence of city operations in order. -/
def CityState.applyOps (c : CityState) (ops : List CityOp) : CityState :=
  ops.foldl CityState.applyOp c

/-! ### Simulation engine tick guard (core/simulation.py) -/

/-- The engine's aggregate statistics (core/simulation.py, self.stats). -/
structure SimStats where
  totalEmergencies : ℕ
  resolvedEmergencies : ℕ
  totalDistanceTraveled : ℕ
deriving DecidableEq, Repr

/-- An event emitted by a tick, at the level of detail needed here
(models core/events.py, Event). -/
structure Event where
  title : String
  description : String
deriving DecidableEq, Repr

/-- The simulation-engine state (core/simulation.py, SimulationEngine):
tick counter, run/pause flags, the city, the vehicles and the
statistics. -/
structure EngineState where
  tick : ℕ
  isRunning : Bool
  isPaused : Bool
  city : CityState
  vehicles : List Vehicle
  stats : SimStats

/-- SimulationEngine.update (lines 182–296).  The guard on lines
189–190 is modelled exactly; the running-tick body (vehicle updates,
periodic CSP run, Bayesian spawns, rule alerts) is abstracted as an
arbitrary state transformer, so that the frame theorem below holds for
every possible body, in particular the real one. -/
def EngineState.update (body : EngineState → EngineState × List Event)
    (s : EngineState) : EngineState × List Event :=
  if !s.isRunning || s.isPaused then (s, [])
  else body s

/-! ### CSP power allocator (ai/csp_engine.py) -/

/-- Building power priority levels (ai/csp_engine.py, Priority). -/
inductive Priority
  | critical
  | high
  | normal
deriving DecidableEq, Repr

/-- Priority.value (3, 2, 1). -/
def Priority.val : Priority → ℕ
  | .critical => 3
  | .high => 2
  | .normal => 1

/-- A power allocation constraint (ai/csp_engine.py, PowerConstraint). -/
structure PowerConstraint where
  buildingId : String
  minPower : ℤ
  maxPower : ℤ
  priority : Priority
deriving DecidableEq, Repr

/-- CSPEngine._get_building_priority. -/
def getBuildingPriority : BuildingType → Priority
  | .hospital => .critical
  | .fireStation => .critical
  | .industrial => .high
  | .commercial => .high
  | .residential => .normal

/-- The minimum-power fractions of CSPEngine._initialize_constraints:
int(req * 0.8) for critical, int(req * 0.5) for high, 0 otherwise.
Python truncates the float product toward zero; for the non-negative
integer requirements the city produces this coincides with the integer
divisions req·4/5 and req/2 used here (the float product never rounds
below an integer boundary for requirements in the city's range). -/
def minPowerFor (p : Priority) (req : ℤ) : ℤ :=
  match p with
  | .critical => req * 4 / 5
  | .high => req / 2
  | .normal => 0

/-- CSPEngine._initialize_constraints (lines 51–76). -/
def initializeConstraints (bs : List Building) : List PowerConstraint :=
  bs.map (fun b =>
    let p := getBuildingPriority b.type
    { buildingId := b.id, minPower := minPowerFor p b.powerRequirement,
      maxPower := b.powerRequirement, priority := p })

/-- Pointwise update of the allocation dict. -/
def updAlloc (a : String → ℤ) (id : String) (v : ℤ) : String → ℤ :=
  fun x => if x = id then v else a x

/-- Stable insertion into a priority-descending list.  Insertion-sorting
with it reproduces Python's stable
sorted(constraints, key=priority.value, reverse=True). -/
def insertByPriority (c : PowerConstraint) :
    List PowerConstraint → List PowerConstraint
  | [] => [c]
  | d :: rest =>
    if c.priority.val ≤ d.priority.val then d :: insertByPriority c rest
    else c :: d :: rest

/-- The stable priority-descending sort of CSPEngine.solve lines 98–102. -/
def sortByPriorityDesc : List PowerConstraint → List PowerConstraint
  | [] => []
  | c :: rest => insertByPriority c (sortByPriorityDesc rest)

/-- Phase 1 of CSPEngine.solve (lines 104–117): each Critical constraint
is granted min(min_power, remaining) and the budget is decremented. -/
def phase1 : List PowerConstraint → (String → ℤ) → ℤ → (String → ℤ) × ℤ
  | [], a, r => (a, r)
  | c :: rest, a, r =>
    if c.priority = .critical then
      phase1 rest (updAlloc a c.buildingId (min c.minPower r))
        (r - min c.minPower r)
    else phase1 rest a r

/-- Phase 2 of CSPEngine.solve (lines 119–125): each High constraint is
topped up by min(min_power − current, remaining). -/
def phase2 : List PowerConstraint → (String → ℤ) → ℤ → (String → ℤ) × ℤ
  | [], a, r => (a, r)
  | c :: rest, a, r =>
    if c.priority = .high then
      phase2 rest
        (updAlloc a c.buildingId
          (a c.buildingId + min (c.minPower - a c.buildingId) r))
        (r - min (c.minPower - a c.buildingId) r)
    else phase2 rest a r

/-- The capacity triples (building_id, can_take, priority value) built
by _distribute_remaining_power lines 156–162. -/
def capacityList (cs : List PowerConstraint) (a : String → ℤ) :
    List (String × ℤ × ℕ) :=
  cs.filterMap (fun c =>
    let canTake := c.maxPower - a c.buildingId
    if canTake > 0 then some (c.buildingId, canTake, c.priority.val)
    else none)

/-- Stable insertion for the priority-descending sort of the capacity
triples (available_capacity.sort(key=x[2], reverse=True)). -/
def insertByThird (t : String × ℤ × ℕ) :
    List (String × ℤ × ℕ) → List (String × ℤ × ℕ)
  | [] => [t]
  | u :: rest =>
    if t.2.2 ≤ u.2.2 then u :: insertByThird t rest
    else t :: u :: rest

/-- Stable priority-descending sort of the capacity triples. -/
def sortByThirdDesc : List (String × ℤ × ℕ) → List (String × ℤ × ℕ)
  | [] => []
  | t :: rest => insertByThird t (sortByThirdDesc rest)

/-- The distribution loop of _distribute_remaining_power (lines
168–174), with the early break once the budget is exhausted. -/
def distLoop : List (String × ℤ × ℕ) → (String → ℤ) → ℤ → (String → ℤ)
  | [], a, _ => a
  | (id, canTake, _) :: rest, a, r =>
    if r ≤ 0 then a
    else
      distLoop rest (updAlloc a id (a id + min canTake r)) (r - min canTake r)

/-- CSPEngine._distribute_remaining_power (lines 148–176). -/
def distributeRemainingPower (a : String → ℤ) (cs : List PowerConstraint)
    (r : ℤ) : String → ℤ :=
  distLoop (sortByThirdDesc (capacityList cs a)) a r

/-- CSPEngine.solve (lines 87–146).  The allocation dict is modelled as
a total function that is 0 outside the constraint ids, matching the
dict initialised to 0 for every constraint id (only those keys are ever
read or written). -/
def solve (cs : List PowerConstraint) (totalPower : ℤ) : String → ℤ :=
  let sorted := sortByPriorityDesc cs
  let p1 := phase1 sorted (fun _ => 0) totalPower
  let p2 := phase2 sorted p1.1 p1.2
  if p2.2 > 0 then distributeRemainingPower p2.1 sorted p2.2 else p2.1

/-- The kind of a violation message appended by
check_constraints_satisfied; each Python message string is modelled as
the pair of its subject and its kind. -/
inductive ViolationKind
  | belowMin
  | aboveMax
  | totalExceeded
deriving DecidableEq, Repr

/-- The per-constraint violation messages of
check_constraints_satisfied (lines 191–202), in source order. -/
def constraintViolations :
    List PowerConstraint → (String → ℤ) → List (String × ViolationKind)
  | [], _ => []
  | c :: rest, a =>
    let al := a c.buildingId
    ((if al < c.minPower then [(c.buildingId, ViolationKind.belowMin)] else []) ++
     (if al > c.maxPower then [(c.buildingId, ViolationKind.aboveMax)] else [])) ++
    constraintViolations rest a

/-- sum(last_allocation.values()): the allocation dict has exactly the
constraint ids as keys, so its value sum is the sum over the constraint
list (the engine's building ids are distinct). -/
def totalUsed (cs : List PowerConstraint) (a : String → ℤ) : ℤ :=
  (cs.map (fun c => a c.buildingId)).sum

/-- CSPEngine.check_constraints_satisfied (lines 184–209). -/
def checkConstraintsSatisfied (cs : List PowerConstraint)
    (a : String → ℤ) (totalPower : ℤ) :
    Bool × List (String × ViolationKind) :=
  let v := constraintViolations cs a ++
    (if totalUsed cs a > totalPower then
      [("total", ViolationKind.totalExceeded)] else [])
  (v.isEmpty, v)

/-- The sum of the Critical constraints' minimum powers. -/
def criticalMinSum : List PowerConstraint → ℤ
  | [] => 0
  | c :: rest =>
    (if c.priority = .critical then c.minPower else 0) + criticalMinSum rest

/-! ### The concrete spec scenario for the allocator (claim C1):
three buildings, budget 100. -/

/-- The three buildings of the concrete scenario: a Hospital with
requirement 150, a Commercial building with requirement 50 and a
Residential building with requirement 30. -/
def scenarioBuildings : List Building :=
  [ { id := "hospital_1", type := .hospital, position := (5, 10),
      powerRequirement := 150 },
    { id := "commercial_1", type := .commercial, position := (13, 3),
      powerRequirement := 50 },
    { id := "residential_1", type := .residential, position := (2, 4),
      powerRequirement := 30 } ]

/-- The scenario constraints derived by _initialize_constraints
(minima 120, 25 and 0). -/
def scenarioConstraints : List PowerConstraint :=
  initializeConstraints scenarioBuildings

/-- The scenario allocation returned by solve() with budget 100. -/
def scenarioAllocation : String → ℤ :=
  solve scenarioConstraints 100

/-- check_constraints_satisfied after the scenario solve. -/
def scenarioCheck : Bool × List (String × ViolationKind) :=
  checkConstraintsSatisfied scenarioConstraints scenarioAllocation 100

/-! ### Bayesian event predictor (ai/bayesian.py) -/

/-- CPT P(Accident | Weather) (ai/bayesian.py, _initialize_cpts). -/
def cptAccidentWeather : Weather → ℚ
  | .clear => 1
  | .rain => 5 / 2
  | .snow => 3

/-- CPT P(Accident | Rush Hour). -/
def cptAccidentRushHour (b : Bool) : ℚ :=
  if b then 2 else 1

/-- Traffic-density classes (the CPT keys "low", "medium", "high"). -/
inductive TrafficDensity
  | low
  | medium
  | high
deriving DecidableEq, Repr

/-- CPT P(Accident | Traffic Density). -/
def cptAccidentTraffic : TrafficDensity → ℚ
  | .low => 1 / 2
  | .medium => 1
  | .high => 9 / 5

/-- BayesianNetwork._is_rush_hour (lines 186–192). -/
def isRushHour (tick : ℕ) : Bool :=
  let m := tick % 1000
  (decide (200 ≤ m) && decide (m ≤ 300)) ||
  (decide (600 ≤ m) && decide (m ≤ 700))

/-- BayesianNetwork._classify_traffic_density (lines 194–201). -/
def classifyTrafficDensity (n : ℕ) : TrafficDensity :=
  if n < 3 then .low
  else if n ≤ 5 then .medium
  else .high

/-- The probability computed by BayesianNetwork.predict_accident
(lines 98–143): base rate times the CPT multipliers, capped at 0.75.
The subsequent Bernoulli spawn draw is a separate random decision and
is not part of the probability computation. -/
def predictAccidentProbability (baseRate : ℚ) (w : Weather) (tick : ℕ)
    (numVehicles : ℕ) : ℚ :=
  let pWeather := cptAccidentWeather w
  let pRushHour := cptAccidentRushHour (isRushHour tick)
  let pTraffic := cptAccidentTraffic (classifyTrafficDensity numVehicles)
  min (baseRate * (pWeather * pRushHour * pTraffic)) (3 / 4)

/-- The weather multiplier exactly as the claim words it
(Clear = 1.0, Rain = 2.5, Snow = 3.0). -/
def claimWeatherMul : Weather → ℚ
  | .clear => 1
  | .rain => 5 / 2
  | .snow => 3

/-- The rush-hour multiplier exactly as the claim words it: 2.0 exactly
when tick mod 1000 lies in [200, 300] or [600, 700], else 1.0. -/
def claimRushMul (tick : ℕ) : ℚ :=
  if (200 ≤ tick % 1000 ∧ tick % 1000 ≤ 300) ∨
     (600 ≤ tick % 1000 ∧ tick % 1000 ≤ 700) then 2 else 1

/-- The traffic multiplier exactly as the claim words it: 0.5 below 3
vehicles, 1.0 for 3–5, 1.8 above 5. -/
def claimTrafficMul (n : ℕ) : ℚ :=
  if n < 3 then 1 / 2
  else if n ≤ 5 then 1
  else 9 / 5

/-! ### Search engine (ai/search.py)

The best-first loops of _astar and _dijkstra are textually identical
except for the pushed priority: new_cost + heuristic(neighbor, goal)
for A*, new_cost alone for Dijkstra.  They are embedded as one loop
parameterised by the heuristic term hf added to the priority
(A* passes the Manhattan heuristic to the goal, Dijkstra the constant
zero, so its pushed priority equals new_cost). -/

/-- A frontier entry: (priority, position, carried path), mirroring
PriorityNode whose ordering compares only the priority field. -/
abbrev Entry : Type := ℚ × Pos × List Pos

/-- Pop a minimal-priority entry (the leftmost among equal
priorities), returning it and the remaining frontier; models
heapq.heappop.  The verified cost property does not depend on which
minimal entry a heap returns. -/
def popMinEntry : List Entry → Option (Entry × List Entry)
  | [] => none
  | e :: rest =>
    match popMinEntry rest with
    | none => some (e, [])
    | some (m, rest') =>
      if e.1 ≤ m.1 then some (e, rest) else some (m, e :: rest')

/-- The neighbour-relaxation loop shared by _astar (lines 114–122) and
_dijkstra (lines 156–163): for each neighbour, new_cost is
cost_so_far[current] plus the edge cost; if the neighbour is new or
improved, it is pushed with priority new_cost + hf(neighbour) and
cost_so_far is updated. -/
def relaxLoop (c : CityState) (hf : Pos → ℚ) (pos : Pos)
    (path : List Pos) :
    List Pos → List Entry → (Pos → Option ℚ) →
      List Entry × (Pos → Option ℚ)
  | [], fr, csf => (fr, csf)
  | n :: ns, fr, csf =>
    match csf n with
    | none =>
      relaxLoop c hf pos path ns
        (fr ++ [((csf pos).getD 0 + getCost c pos n + hf n, n, path ++ [n])])
        (fun x => if x = n then some ((csf pos).getD 0 + getCost c pos n)
                  else csf x)
    | some gn =>
      if (csf pos).getD 0 + getCost c pos n < gn then
        relaxLoop c hf pos path ns
          (fr ++ [((csf pos).getD 0 + getCost c pos n + hf n, n, path ++ [n])])
          (fun x => if x = n then some ((csf pos).getD 0 + getCost c pos n)
                    else csf x)
      else
        relaxLoop c hf pos path ns fr csf

/-- The main best-first loop shared by _astar and _dijkstra (lines
98–123 and 140–163), with explicit fuel.  Result none means the fuel
ran out (proved impossible for the initial fuel below); some none means
the frontier was exhausted without reaching the goal; some (some p)
means the goal was popped with carried path p. -/
def searchLoop (c : CityState) (goal : Pos) (hf : Pos → ℚ) :
    ℕ → List Entry → List Pos → (Pos → Option ℚ) →
      Option (Option (List Pos))
  | 0, _, _, _ => none
  | fuel + 1, frontier, visited, csf =>
    match popMinEntry frontier with
    | none => some none
    | some (e, rest) =>
      if e.2.1 = goal then some (some e.2.2)
      else if visited.contains e.2.1 then
        searchLoop c goal hf fuel rest visited csf
      else
        let step := relaxLoop c hf e.2.1 e.2.2 (getNeighbors c e.2.1) rest csf
        searchLoop c goal hf fuel step.1 (e.2.1 :: visited) step.2

/-- The walkable in-range positions, one per grid cell, in the
row-major order the graph builder scans them. -/
def allPositions (c : CityState) : List Pos :=
  (List.range c.size).flatMap
    (fun y => (List.range c.size).map (fun x => (Int.ofNat x, Int.ofNat y)))

/-- Fuel that strictly dominates the loop measure: the measure starts
at 1 + 5·(walkable positions) ≤ 1 + 5·size² and strictly decreases at
every iteration (proved below), so this fuel is never exhausted. -/
def initialFuel (c : CityState) : ℕ :=
  5 * c.size * c.size + 2

/-- The initial cost_so_far dict {start: 0}. -/
def initCsf (s : Pos) : Pos → Option ℚ :=
  fun x => if x = s then some 0 else none

/-- SearchEngine._astar (lines 83–125) on the engine's non-diagonal
grid graph: frontier seeded with PriorityNode(0, start, [start]). -/
def astar (c : CityState) (s g : Pos) : Option (List Pos) :=
  (searchLoop c g (fun p => heuristic p g) (initialFuel c)
    [(0, s, [s])] [] (initCsf s)).join

/-- SearchEngine._dijkstra (lines 127–166): the identical loop with no
heuristic term in the pushed priority. -/
def dijkstra (c : CityState) (s g : Pos) : Option (List Pos) :=
  (searchLoop c g (fun _ => 0) (initialFuel c)
    [(0, s, [s])] [] (initCsf s)).join

/-- One dequeue step of SearchEngine._bfs (lines 168–195): neighbours
not yet seen are marked visited and enqueued with their extended
paths. -/
def bfsEnqueue (c : CityState) (path : List Pos) :
    List Pos → List (Pos × List Pos) × List Pos →
      List (Pos × List Pos) × List Pos
  | [], acc => acc
  | n :: ns, acc =>
    if acc.2.contains n then bfsEnqueue c path ns acc
    else bfsEnqueue c path ns (acc.1 ++ [(n, path ++ [n])], acc.2 ++ [n])

/-- The BFS loop, fuelled like the best-first loop. -/
def bfsLoop (c : CityState) (goal : Pos) :
    ℕ → List (Pos × List Pos) → List Pos → Option (List Pos)
  | 0, _, _ => none
  | _ + 1, [], _ => none
  | fuel + 1, (p, path) :: queue, visited =>
    if p = goal then some path
    else
      let next := bfsEnqueue c path (getNeighbors c p) (queue, visited)
      bfsLoop c goal fuel next.1 next.2

/-- SearchEngine._bfs. -/
def bfs (c : CityState) (s g : Pos) : Option (List Pos) :=
  bfsLoop c g (initialFuel c) [(s, [s])] [s]

/-- Per-algorithm statistics (search.py, algorithm_stats entries). -/
structure AlgStats where
  calls : ℕ
  successes : ℕ
  avgPathLength : ℚ
deriving DecidableEq, Repr

/-- The search engine's statistics table. -/
structure SearchStats where
  astarStats : AlgStats
  dijkstraStats : AlgStats
  bfsStats : AlgStats
deriving DecidableEq, Repr

/-- The statistics update of find_path lines 75–79 together with
_update_avg_path_length: the call counter always increments; on
success the success counter increments and the running average of path
lengths is recomputed. -/
def bumpStats (a : AlgStats) (res : Option (List Pos)) : AlgStats :=
  let a1 : AlgStats := { a with calls := a.calls + 1 }
  match res with
  | none => a1
  | some p =>
    let a2 : AlgStats := { a1 with successes := a1.successes + 1 }
    { a2 with avgPathLength :=
        (a2.avgPathLength * ((a2.successes : ℚ) - 1) + (p.length : ℚ)) /
          (a2.successes : ℚ) }

/-- Update the statistics table for one of the three known algorithm
keys. -/
def recordStats (st : SearchStats) (alg : String)
    (res : Option (List Pos)) : SearchStats :=
  if alg = "astar" then { st with astarStats := bumpStats st.astarStats res }
  else if alg = "dijkstra" then
    { st with dijkstraStats := bumpStats st.dijkstraStats res }
  else { st with bfsStats := bumpStats st.bfsStats res }

/-- The prebuilt grid graph (core/graph.py, GridGraph): the node table
is computed from the city when the graph is built. -/
structure GridGraph where
  city : CityState
  nodes : List Pos

/-- GridGraph._build_graph: a node per walkable cell at build time. -/
def buildGraph (c : CityState) : GridGraph :=
  ⟨c, (allPositions c).filter (fun p => c.walkableP p)⟩

/-- GridGraph.is_valid_position: in the prebuilt node table and
currently walkable. -/
def GridGraph.isValidPosition (g : GridGraph) (p : Pos) : Bool :=
  g.nodes.contains p && g.city.walkableP p

/-- SearchEngine.find_path (lines 38–81): validate both endpoints,
dispatch on the lower-cased algorithm name, then record statistics.
An unknown algorithm name is rejected before any statistics update. -/
def findPath (g : GridGraph) (st : SearchStats) (start goal : Pos)
    (algorithm : String) : Option (List Pos) × SearchStats :=
  if !(g.isValidPosition start) then (none, st)
  else if !(g.isValidPosition goal) then (none, st)
  else
    let algL := lowerStr algorithm
    if algL = "astar" then
      let path := astar g.city start goal
      (path, recordStats st algL path)
    else if algL = "dijkstra" then
      let path := dijkstra g.city start goal
      (path, recordStats st algL path)
    else if algL = "bfs" then
      let path := bfs g.city start goal
      (path, recordStats st algL path)
    else (none, st)

/-! ### Paths and their costs -/

/-- A walkable path: non-empty, every position walkable and every
consecutive pair a graph-neighbour step. -/
def isPathB (c : CityState) : List Pos → Bool
  | [] => false
  | [p] => c.walkableP p
  | p :: q :: rest =>
    (getNeighbors c p).contains q && isPathB c (q :: rest)

/-- The total cost of a path under the graph's cost function: the sum
of get_cost over consecutive pairs. -/
def pathCost (c : CityState) : List Pos → ℚ
  | p :: q :: rest => getCost c p q + pathCost c (q :: rest)
  | _ => 0

/-- A valid walkable route from s to g. -/
def ValidRoute (c : CityState) (s g : Pos) (p : List Pos) : Prop :=
  isPathB c p = true ∧ p.head? = some s ∧ p.getLast? = some g

/-! ### Concrete states used by the witnesses -/

/-- A 2×2 all-road city in clear weather. -/
def tinyCity : CityState :=
  { size := 2,
    grid := [[CellType.road, CellType.road], [CellType.road, CellType.road]],
    buildings := [], emergencies := [], blockedRoads := [],
    weather := .clear }

/-- A vehicle with a two-step path. -/
def sampleVehicle : Vehicle :=
  { id := "car_0", type := .normal, position := (0, 0),
    destination := some (1, 1), path := [(1, 0), (1, 1)],
    status := .moving }

/-- An idle vehicle with an empty path. -/
def idleVehicle : Vehicle :=
  { id := "car_1", type := .normal, position := (0, 1) }

/-- An already-resolved emergency. -/
def sampleEmergency : Emergency :=
  { id := "accident_3", type := "accident", position := (0, 1),
    severity := 5, createdTick := 3, resolved := true }

/-- The tiny city holding the resolved emergency. -/
def sampleCity : CityState :=
  { tinyCity with emergencies := [sampleEmergency] }

/-- A sequence of engine-driven city operations. -/
def sampleOps : List CityOp :=
  [CityOp.spawn "fire" 7 (1, 0) 4, CityOp.block (0, 1),
   CityOp.resolve "fire_7", CityOp.setWeather "rain",
   CityOp.assign "accident_3" "ambulance_1", CityOp.alloc (fun _ => 5)]

/-- A stopped engine state. -/
def sampleEngine : EngineState :=
  { tick := 3, isRunning := false, isPaused := false, city := sampleCity,
    vehicles := [sampleVehicle],
    stats := { totalEmergencies := 1, resolvedEmergencies := 1,
               totalDistanceTraveled := 0 } }

/-- A tick body that would visibly change the state if it ran. -/
def sampleBody : EngineState → EngineState × List Event :=
  fun s => ({ s with tick := s.tick + 1 },
    [{ title := "Tick", description := "tick body ran" }])

/-- Fresh search statistics (all counters zero). -/
def initialSearchStats : SearchStats :=
  { astarStats := ⟨0, 0, 0⟩, dijkstraStats := ⟨0, 0, 0⟩,
    bfsStats := ⟨0, 0, 0⟩ }

/-- The prebuilt graph of the tiny city. -/
def tinyGraph : GridGraph := buildGraph tinyCity

/-! ### Proof-side notions for the best-first searches -/

/-- The number of walkable grid positions not yet visited. -/
def unvisitedCount (c : CityState) (visited : List Pos) : ℕ :=
  ((allPositions c).filter
    (fun p => c.walkableP p && !(visited.contains p))).length

/-- The loop measure of searchLoop: it strictly decreases at every
iteration, bounding the number of iterations. -/
def searchMeasure (c : CityState) (frontier : List Entry)
    (visited : List Pos) : ℕ :=
  frontier.length + 5 * unvisitedCount c visited

/-- The best-first loop invariant.  It ties every frontier entry to a
valid route and its cost, records that cost_so_far values are realised
by routes and witnessed in the frontier while unvisited, and that
visited positions carry minimal costs whose neighbours have been
relaxed. -/
structure SearchInv (c : CityState) (s goal : Pos) (hf : Pos → ℚ)
    (frontier : List Entry) (visited : List Pos)
    (csf : Pos → Option ℚ) : Prop where
  entryRoute : ∀ e ∈ frontier, ValidRoute c s e.2.1 e.2.2
  entryCsf : ∀ e ∈ frontier, ∃ g, csf e.2.1 = some g ∧ g ≤ pathCost c e.2.2
  entryPr : ∀ e ∈ frontier,
    e.1 = pathCost c e.2.2 + hf e.2.1 ∨ (e.2.1 = s ∧ e.2.2 = [s] ∧ e.1 = 0)
  csfWitness : ∀ p g, csf p = some g → p ∉ visited →
    ∃ e ∈ frontier, e.2.1 = p ∧ pathCost c e.2.2 = g
  csfRealized : ∀ p g, csf p = some g →
    ∃ q, ValidRoute c s p q ∧ pathCost c q = g
  visitedMin : ∀ p ∈ visited, ∃ g, csf p = some g ∧
    ∀ q, ValidRoute c s p q → g ≤ pathCost c q
  visitedNbr : ∀ p ∈ visited, ∀ gp, csf p = some gp →
    ∀ n ∈ getNeighbors c p, ∃ gn, csf n = some gn ∧ gn ≤ gp + stepCost c
  startCsf : csf s = some 0
  goalFresh : goal ∉ visited

/-- The intermediate invariant maintained while relaxLoop scans the
neighbour list ns of the freshly expanded position pos (whose minimal
cost is g0): it is the post-expansion invariant with pos already
treated as visited, except that pos's neighbour relaxation is only
guaranteed for neighbours no longer in ns. -/
structure RelaxInv (c : CityState) (s : Pos) (hf : Pos → ℚ) (pos : Pos)
    (g0 : ℚ) (visited : List Pos) (ns : List Pos) (fr : List Entry)
    (csf : Pos → Option ℚ) : Prop where
  posCsf : csf pos = some g0
  entryRoute : ∀ e ∈ fr, ValidRoute c s e.2.1 e.2.2
  entryCsf : ∀ e ∈ fr, ∃ g, csf e.2.1 = some g ∧ g ≤ pathCost c e.2.2
  entryPr : ∀ e ∈ fr,
    e.1 = pathCost c e.2.2 + hf e.2.1 ∨ (e.2.1 = s ∧ e.2.2 = [s] ∧ e.1 = 0)
  csfWitness : ∀ p g, csf p = some g → p ≠ pos → p ∉ visited →
    ∃ e ∈ fr, e.2.1 = p ∧ pathCost c e.2.2 = g
  csfRealized : ∀ p g, csf p = some g →
    ∃ q, ValidRoute c s p q ∧ pathCost c q = g
  visitedMin : ∀ p, (p = pos ∨ p ∈ visited) → ∃ g, csf p = some g ∧
    ∀ q, ValidRoute c s p q → g ≤ pathCost c q
  visitedNbr : ∀ p, (p = pos ∨ p ∈ visited) → ∀ gp, csf p = some gp →
    ∀ n ∈ getNeighbors c p, (p = pos → n ∉ ns) →
      ∃ gn, csf n = some gn ∧ gn ≤ gp + stepCost c
  startCsf : csf s = some 0

/-!
## Theorems

The remainder of the file settles the specification claims about the
definitions above.
-/

/-! ### Vehicle movement (claims C5 and C10) -/

/-- Stepping a vehicle whose path holds the K positions ps: each of the
first K−1 calls moves one step and returns false, the K-th call empties
the path, goes Idle and returns true. -/
theorem runMoves_spec (ps : List Pos) :
    ∀ (hne : ps ≠ []) (v : Vehicle), v.path = ps →
      ((v.runMoves ps.length).1.position = ps.getLast hne) ∧
      ((v.runMoves ps.length).1.path = []) ∧
      ((v.runMoves ps.length).1.status = VehicleStatus.idle) ∧
      ((v.runMoves ps.length).2 =
        List.replicate (ps.length - 1) false ++ [true]) := by
  induction ps with
  | nil => intro hne; exact absurd rfl hne
  | cons a tail ih =>
    intro hne v hp
    cases tail with
    | nil =>
      simp [Vehicle.runMoves, Vehicle.moveAlongPath, hp, List.getLast]
    | cons b rest =>
      have hstep : v.moveAlongPath =
          ({ v with position := a, path := b :: rest,
                    status := .moving, stuckCounter := 0 }, false) := by
        simp [Vehicle.moveAlongPath, hp]
      have hlen : (a :: b :: rest).length = (b :: rest).length + 1 := rfl
      have hrun : v.runMoves ((a :: b :: rest).length) =
          (((v.moveAlongPath).1.runMoves ((b :: rest).length)).1,
            (v.moveAlongPath).2 ::
              ((v.moveAlongPath).1.runMoves ((b :: rest).length)).2) := by
        rw [hlen]; rfl
      have ihv := ih (by simp)
        { v with position := a, path := b :: rest,
                 status := .moving, stuckCounter := 0 } rfl
      refine ⟨?_, ?_, ?_, ?_⟩
      · rw [hrun, hstep]
        rw [List.getLast_cons (by simp)]
        exact ihv.1
      · rw [hrun, hstep]; exact ihv.2.1
      · rw [hrun, hstep]; exact ihv.2.2.1
      · rw [hrun, hstep]
        have : (a :: b :: rest).length - 1 = ((b :: rest).length - 1) + 1 := by
          simp
      -- replicate (n+1) false ++ [true] = false :: (replicate n false ++ [true])
        rw [this, List.replicate_succ, List.cons_append]
        exact congrArg (false :: ·) ihv.2.2.2

/-- Claim C5: a vehicle whose path is a non-empty sequence of K
positions reaches the last position of that path after exactly K calls
to move_along_path, with its path empty and its status Idle; none of
the first K−1 calls returns true and the K-th call returns true (the
flag sequence is K−1 falses followed by one true). -/
theorem vehicle_path_arrival (v : Vehicle) (hne : v.path ≠ []) :
    ((v.runMoves v.path.length).1.position = v.path.getLast hne) ∧
    ((v.runMoves v.path.length).1.path = []) ∧
    ((v.runMoves v.path.length).1.status = VehicleStatus.idle) ∧
    ((v.runMoves v.path.length).2 =
      List.replicate (v.path.length - 1) false ++ [true]) :=
  runMoves_spec v.path hne v rfl

/-- Witness for C5: the sample vehicle with a 2-step path arrives in
exactly 2 steps with flag sequence [false, true]. -/
theorem vehicle_path_arrival_witness :
    ((sampleVehicle.runMoves sampleVehicle.path.length).1.position =
      sampleVehicle.path.getLast (by decide)) ∧
    ((sampleVehicle.runMoves sampleVehicle.path.length).1.path = []) ∧
    ((sampleVehicle.runMoves sampleVehicle.path.length).1.status =
      VehicleStatus.idle) ∧
    ((sampleVehicle.runMoves sampleVehicle.path.length).2 =
      List.replicate (sampleVehicle.path.length - 1) false ++ [true]) :=
  vehicle_path_arrival sampleVehicle (by decide)

/-- Claim C10: calling move_along_path on a vehicle with an empty path
returns true immediately, sets the status to Idle and leaves the
position, destination and path unchanged. -/
theorem moveAlongPath_empty_path (v : Vehicle) (h : v.path = []) :
    (v.moveAlongPath).2 = true ∧
    (v.moveAlongPath).1.status = VehicleStatus.idle ∧
    (v.moveAlongPath).1.position = v.position ∧
    (v.moveAlongPath).1.destination = v.destination ∧
    (v.moveAlongPath).1.path = v.path := by
  simp [Vehicle.moveAlongPath, h]

/-- Witness for C10 on the idle vehicle. -/
theorem moveAlongPath_empty_path_witness :
    (idleVehicle.moveAlongPath).2 = true ∧
    (idleVehicle.moveAlongPath).1.status = VehicleStatus.idle ∧
    (idleVehicle.moveAlongPath).1.position = idleVehicle.position ∧
    (idleVehicle.moveAlongPath).1.destination = idleVehicle.destination ∧
    (idleVehicle.moveAlongPath).1.path = idleVehicle.path :=
  moveAlongPath_empty_path idleVehicle (by decide)

/-! ### Emergency lifecycle monotonicity (claim C6) -/

/-- markResolvedFirst keeps every slot's emergency, except possibly
setting its resolved flag. -/
theorem markResolvedFirst_get? (l : List Emergency) (eid : String)
    (i : ℕ) :
    (markResolvedFirst l eid)[i]? = l[i]? ∨
    (∃ e, l[i]? = some e ∧
      (markResolvedFirst l eid)[i]? = some { e with resolved := true }) := by
  induction l generalizing i with
  | nil => left; rfl
  | cons e rest ih =>
    by_cases h : e.id = eid
    · cases i with
      | zero =>
        right
        exact ⟨e, by simp, by simp [markResolvedFirst, h]⟩
      | succ j =>
        left
        simp [markResolvedFirst, h]
    · cases i with
      | zero => left; simp [markResolvedFirst, h]
      | succ j =>
        have := ih j
        simpa [markResolvedFirst, h] using this

/-- assignVehicleFirst keeps every slot's emergency, except possibly
setting its assigned vehicle (never its resolved flag). -/
theorem assignVehicleFirst_get? (l : List Emergency) (eid vid : String)
    (i : ℕ) :
    (assignVehicleFirst l eid vid)[i]? = l[i]? ∨
    (∃ e, l[i]? = some e ∧
      (assignVehicleFirst l eid vid)[i]? =
        some { e with assignedVehicleId := some vid }) := by
  induction l generalizing i with
  | nil => left; rfl
  | cons e rest ih =>
    by_cases h : e.id = eid
    · cases i with
      | zero =>
        right
        exact ⟨e, by simp, by simp [assignVehicleFirst, h]⟩
      | succ j =>
        left
        simp [assignVehicleFirst, h]
    · cases i with
      | zero => left; simp [assignVehicleFirst, h]
      | succ j =>
        have := ih j
        simpa [assignVehicleFirst, h] using this

/-- One engine-driven city operation keeps every already-resolved
emergency resolved (the emergency list is only appended to or updated
monotonically in place). -/
theorem applyOp_resolved_mono (c : CityState) (op : CityOp) (i : ℕ)
    (e : Emergency) (he : c.emergencies[i]? = some e)
    (hres : e.resolved = true) :
    ∃ e', (c.applyOp op).emergencies[i]? = some e' ∧ e'.resolved = true := by
  cases op with
  | resolve eid =>
    show ∃ e', (c.resolveEmergency eid).emergencies[i]? = some e' ∧ _
    unfold CityState.resolveEmergency
    cases hfind : c.emergencies.find? (fun x => x.id = eid) with
    | none => exact ⟨e, he, hres⟩
    | some f =>
      dsimp only
      have hmark : ∃ e',
          (markResolvedFirst c.emergencies eid)[i]? = some e' ∧
          e'.resolved = true := by
        rcases markResolvedFirst_get? c.emergencies eid i with h | ⟨x, hx, hx'⟩
        · exact ⟨e, h.trans he, hres⟩
        · exact ⟨{ x with resolved := true }, hx', rfl⟩
      by_cases ht : f.type = "accident"
      · rw [if_pos ht]; exact hmark
      · rw [if_neg ht]; exact hmark
  | spawn t k p s =>
    show ∃ e', (c.spawnEmergency t k p s).emergencies[i]? = some e' ∧ _
    unfold CityState.spawnEmergency
    by_cases hw : c.walkableP p = true
    · rw [if_pos hw]
      refine ⟨e, ?_, hres⟩
      have hilt : i < c.emergencies.length := by
        by_contra hge
        rw [List.getElem?_eq_none (by omega)] at he
        exact Option.noConfusion he
      show (c.emergencies ++ [_])[i]? = some e
      rw [List.getElem?_append, if_pos hilt]
      exact he
    · rw [if_neg hw]; exact ⟨e, he, hres⟩
  | block p => exact ⟨e, he, hres⟩
  | unblock p => exact ⟨e, he, hres⟩
  | setWeather s => exact ⟨e, he, hres⟩
  | assign eid vid =>
    show ∃ e', (c.assignVehicle eid vid).emergencies[i]? = some e' ∧ _
    rcases assignVehicleFirst_get? c.emergencies eid vid i with h | ⟨x, hx, hx'⟩
    · exact ⟨e, h.trans he, hres⟩
    · refine ⟨{ x with assignedVehicleId := some vid }, hx', ?_⟩
      have : x = e := by rw [hx] at he; exact Option.some.inj he
      rw [this] at *
      exact hres
  | alloc f => exact ⟨e, he, hres⟩

/-- Claim C6: once an Emergency's resolved flag is true, no sequence of
further engine operations (tick updates, dispatch, resolve_emergency,
allocator runs, weather changes — all of whose city writes factor
through CityOp) ever sets it back to false. -/
theorem emergency_resolved_monotone (ops : List CityOp) (c : CityState)
    (i : ℕ) (e : Emergency) (he : c.emergencies[i]? = some e)
    (hres : e.resolved = true) :
    ∃ e', (c.applyOps ops).emergencies[i]? = some e' ∧ e'.resolved = true := by
  induction ops generalizing c e with
  | nil => exact ⟨e, he, hres⟩
  | cons op rest ih =>
    obtain ⟨e1, he1, hres1⟩ := applyOp_resolved_mono c op i e he hres
    exact ih (c.applyOp op) e1 he1 hres1

/-- Witness for C6: the resolved accident in the sample city stays
resolved across a spawn, a road block, another resolve, a weather
change, a dispatch assignment and an allocator write. -/
theorem emergency_resolved_monotone_witness :
    ∃ e', (sampleCity.applyOps sampleOps).emergencies[0]? = some e' ∧
      e'.resolved = true :=
  emergency_resolved_monotone sampleOps sampleCity 0 sampleEmergency
    (by decide) (by decide)

/-! ### Tick guard (claim C7) -/

/-- Claim C7: when the engine is not running or is paused, update()
returns the empty event list and leaves the whole engine state — tick,
vehicles, city (buildings, emergencies, blocked roads, weather) and
statistics — exactly unchanged, whatever the tick body would do. -/
theorem update_not_running_noop (body : EngineState → EngineState × List Event)
    (s : EngineState) (h : s.isRunning = false ∨ s.isPaused = true) :
    s.update body = (s, []) := by
  rcases h with h | h <;> simp [EngineState.update, h]

/-- Witness for C7: the stopped sample engine ignores a tick body that
would increment the tick counter. -/
theorem update_not_running_noop_witness :
    sampleEngine.isRunning = false ∧
    sampleEngine.update sampleBody = (sampleEngine, []) :=
  ⟨rfl, update_not_running_noop sampleBody sampleEngine (Or.inl rfl)⟩

/-! ### Bayesian accident probability (claim C8) -/

/-- The coded weather CPT equals the claimed multipliers. -/
theorem cptWeather_eq_claim (w : Weather) :
    cptAccidentWeather w = claimWeatherMul w := by
  cases w <;> rfl

/-- The coded rush-hour CPT composed with _is_rush_hour equals the
claimed rush multiplier. -/
theorem rush_eq_claim (t : ℕ) :
    cptAccidentRushHour (isRushHour t) = claimRushMul t := by
  by_cases h : (200 ≤ t % 1000 ∧ t % 1000 ≤ 300) ∨
      (600 ≤ t % 1000 ∧ t % 1000 ≤ 700)
  · have hb : isRushHour t = true := by
      simp only [isRushHour, Bool.or_eq_true, Bool.and_eq_true,
        decide_eq_true_eq]
      exact h
    rw [hb, claimRushMul, if_pos h]; rfl
  · have hb : isRushHour t = false := by
      simp only [isRushHour, Bool.or_eq_false_iff, Bool.and_eq_false_iff]
      push_neg at h
      constructor
      · by_cases h1 : 200 ≤ t % 1000
        · right; simpa using h.1 h1
        · left; simpa using h1
      · by_cases h2 : 600 ≤ t % 1000
        · right; simpa using h.2 h2
        · left; simpa using h2
    rw [hb, claimRushMul, if_neg h]; rfl

/-- The coded traffic CPT composed with the classifier equals the
claimed traffic multiplier. -/
theorem traffic_eq_claim (n : ℕ) :
    cptAccidentTraffic (classifyTrafficDensity n) = claimTrafficMul n := by
  unfold classifyTrafficDensity claimTrafficMul
  by_cases h1 : n < 3
  · rw [if_pos h1, if_pos h1]; rfl
  · rw [if_neg h1, if_neg h1]
    by_cases h2 : n ≤ 5
    · rw [if_pos h2, if_pos h2]; rfl
    · rw [if_neg h2, if_neg h2]; rfl

/-- Claim C8: predict_accident computes its probability as
min(base_rate × weather × rush_hour × traffic, 0.75) with the claimed
multiplier tables; in particular Snow, base rate 0.02, no rush hour and
low traffic give exactly 0.03. -/
theorem predict_accident_formula :
    (∀ (baseRate : ℚ) (w : Weather) (tick numVehicles : ℕ),
      predictAccidentProbability baseRate w tick numVehicles =
        min (baseRate * claimWeatherMul w * claimRushMul tick *
          claimTrafficMul numVehicles) (3 / 4)) ∧
    predictAccidentProbability (2 / 100) Weather.snow 0 0 = 3 / 100 := by
  constructor
  · intro baseRate w tick numVehicles
    unfold predictAccidentProbability
    rw [cptWeather_eq_claim, rush_eq_claim, traffic_eq_claim]
    ring_nf
  · have h1 : isRushHour 0 = false := by decide
    have h2 : classifyTrafficDensity 0 = TrafficDensity.low := by decide
    unfold predictAccidentProbability
    rw [h1, h2]
    norm_num [cptAccidentWeather, cptAccidentRushHour, cptAccidentTraffic,
      min_def]

/-! ### Unknown search algorithm (claim C9) -/

/-- Claim C9: for valid start and goal positions and an algorithm
string whose lower-casing is none of astar, dijkstra and bfs, find_path
returns not-found and leaves all per-algorithm statistics untouched
(and, being a total function, raises nothing). -/
theorem findPath_unknown_algorithm (g : GridGraph) (st : SearchStats)
    (start goal : Pos) (alg : String)
    (h1 : g.isValidPosition start = true)
    (h2 : g.isValidPosition goal = true)
    (h3 : lowerStr alg ≠ "astar") (h4 : lowerStr alg ≠ "dijkstra")
    (h5 : lowerStr alg ≠ "bfs") :
    findPath g st start goal alg = (none, st) := by
  unfold findPath
  rw [h1, h2]
  simp [h3, h4, h5]

/-- Witness for C9: the algorithm name "Foo" on the tiny graph. -/
theorem findPath_unknown_algorithm_witness :
    findPath tinyGraph initialSearchStats (0, 0) (1, 1) "Foo" =
      (none, initialSearchStats) :=
  findPath_unknown_algorithm tinyGraph initialSearchStats (0, 0) (1, 1)
    "Foo" (by decide) (by decide) (by decide) (by decide) (by decide)

/-! ### The concrete allocator scenario (claim C1) -/

/-- Counterexample to C1 as stated: after the scenario solve,
check_satisfied reports two violations — the Hospital's (100 < 120) and
also the Commercial building's (0 < 25) — not exactly one. -/
theorem scenario_two_violations :
    scenarioCheck.2 =
      [("hospital_1", ViolationKind.belowMin),
       ("commercial_1", ViolationKind.belowMin)] ∧
    scenarioCheck.2.length ≠ 1 := by
  decide

/-- Claim C1 as amended: solve() allocates 100 to the Hospital and 0 to
the Commercial and Residential buildings, and check_satisfied()
afterwards reports exactly two violations, one for the Hospital
(allocated 100 < minimum 120) and one for the Commercial building
(allocated 0 < minimum 25). -/
theorem scenario_allocation_spec :
    scenarioAllocation "hospital_1" = 100 ∧
    scenarioAllocation "commercial_1" = 0 ∧
    scenarioAllocation "residential_1" = 0 ∧
    scenarioCheck.1 = false ∧
    scenarioCheck.2 =
      [("hospital_1", ViolationKind.belowMin),
       ("commercial_1", ViolationKind.belowMin)] := by
  decide

/-! ### Allocator invariants (claims C2 and C4) -/

theorem updAlloc_same (a : String → ℤ) (id : String) (v : ℤ) :
    updAlloc a id v id = v := by
  simp [updAlloc]

theorem updAlloc_other (a : String → ℤ) (id : String) (v : ℤ) (x : String)
    (h : x ≠ id) : updAlloc a id v x = a x := by
  simp [updAlloc, h]

/-- Stable insertion is a permutation. -/
theorem insertByPriority_perm (c : PowerConstraint)
    (l : List PowerConstraint) : (insertByPriority c l).Perm (c :: l) := by
  induction l with
  | nil => exact List.Perm.refl _
  | cons d rest ih =>
    by_cases h : c.priority.val ≤ d.priority.val
    · rw [insertByPriority, if_pos h]
      exact (ih.cons d).trans (List.Perm.swap c d rest)
    · rw [insertByPriority, if_neg h]

/-- The stable sort is a permutation of its input. -/
theorem sortByPriorityDesc_perm (l : List PowerConstraint) :
    (sortByPriorityDesc l).Perm l := by
  induction l with
  | nil => exact List.Perm.refl _
  | cons c rest ih =>
    exact (insertByPriority_perm c (sortByPriorityDesc rest)).trans (ih.cons c)

theorem insertByThird_perm (t : String × ℤ × ℕ)
    (l : List (String × ℤ × ℕ)) : (insertByThird t l).Perm (t :: l) := by
  induction l with
  | nil => exact List.Perm.refl _
  | cons u rest ih =>
    by_cases h : t.2.2 ≤ u.2.2
    · rw [insertByThird, if_pos h]
      exact (ih.cons u).trans (List.Perm.swap t u rest)
    · rw [insertByThird, if_neg h]

theorem sortByThirdDesc_perm (l : List (String × ℤ × ℕ)) :
    (sortByThirdDesc l).Perm l := by
  induction l with
  | nil => exact List.Perm.refl _
  | cons t rest ih =>
    exact (insertByThird_perm t (sortByThirdDesc rest)).trans (ih.cons t)

/-- In a list with pairwise-distinct building ids, equal ids force
equal members. -/
theorem nodup_id_unique (l : List PowerConstraint)
    (hnd : (l.map (fun c => c.buildingId)).Nodup) :
    ∀ c ∈ l, ∀ c' ∈ l, c.buildingId = c'.buildingId → c = c' := by
  induction l with
  | nil => intro c hc; exact absurd hc (by simp)
  | cons d rest ih =>
    rw [List.map_cons, List.nodup_cons] at hnd
    intro c hc c' hc' hid
    rcases List.mem_cons.mp hc with hceq | hcmem
    · rcases List.mem_cons.mp hc' with hceq' | hcmem'
      · rw [hceq, hceq']
      · subst hceq
        exact absurd (hid ▸ List.mem_map_of_mem _ hcmem') hnd.1
    · rcases List.mem_cons.mp hc' with hceq' | hcmem'
      · subst hceq'
        exact absurd (hid ▸ List.mem_map_of_mem _ hcmem) hnd.1
      · exact ih hnd.2 c hcmem c' hcmem' hid

theorem totalUsed_cons (c : PowerConstraint) (rest : List PowerConstraint)
    (f : String → ℤ) :
    totalUsed (c :: rest) f = f c.buildingId + totalUsed rest f := by
  simp [totalUsed]

theorem totalUsed_congr (l : List PowerConstraint) (f g : String → ℤ)
    (h : ∀ c ∈ l, f c.buildingId = g c.buildingId) :
    totalUsed l f = totalUsed l g := by
  induction l with
  | nil => rfl
  | cons c rest ih =>
    rw [totalUsed_cons, totalUsed_cons, h c (by simp),
      ih (fun c' hc' => h c' (by simp [hc']))]

theorem totalUsed_zero (l : List PowerConstraint) :
    totalUsed l (fun _ => 0) = 0 := by
  induction l with
  | nil => rfl
  | cons c rest ih => rw [totalUsed_cons, ih]; ring

theorem totalUsed_perm (l l' : List PowerConstraint) (h : l.Perm l')
    (f : String → ℤ) : totalUsed l f = totalUsed l' f :=
  (h.map _).sum_eq

/-- Adding δ at one id present exactly once adds δ to the total. -/
theorem totalUsed_update_add (l : List PowerConstraint) (f : String → ℤ)
    (id : String) (δ : ℤ)
    (hnd : (l.map (fun c => c.buildingId)).Nodup)
    (hmem : id ∈ l.map (fun c => c.buildingId)) :
    totalUsed l (updAlloc f id (f id + δ)) = totalUsed l f + δ := by
  induction l with
  | nil => exact absurd hmem (by simp)
  | cons c rest ih =>
    rw [List.map_cons, List.nodup_cons] at hnd
    by_cases h : c.buildingId = id
    · subst h
      have hrest : totalUsed rest (updAlloc f c.buildingId (f c.buildingId + δ)) =
          totalUsed rest f := by
        refine totalUsed_congr rest _ _ (fun c' hc' => ?_)
        refine updAlloc_other _ _ _ _ (fun heq => ?_)
        exact hnd.1 (heq ▸ List.mem_map_of_mem _ hc')
      rw [totalUsed_cons, totalUsed_cons, updAlloc_same, hrest]
      ring
    · rw [List.map_cons] at hmem
      have hmem' : id ∈ rest.map (fun c => c.buildingId) := by
        rcases List.mem_cons.mp hmem with h' | h'
        · exact absurd h'.symm h
        · exact h'
      rw [totalUsed_cons, totalUsed_cons, updAlloc_other _ _ _ _ h,
        ih hnd.2 hmem']
      ring

/-! Phase-1 lemmas. -/

/-- Phase 1 writes only the ids of the Critical constraints it scans. -/
theorem phase1_untouched (l : List PowerConstraint) (a : String → ℤ)
    (r : ℤ) (x : String)
    (h : ∀ c ∈ l, c.priority = .critical → c.buildingId ≠ x) :
    (phase1 l a r).1 x = a x := by
  induction l generalizing a r with
  | nil => rfl
  | cons c rest ih =>
    by_cases hc : c.priority = .critical
    · simp only [phase1]
      rw [if_pos hc, ih _ _ (fun c' hc' => h c' (by simp [hc']))]
      exact updAlloc_other _ _ _ _ (Ne.symm (h c (by simp) hc))
    · simp only [phase1]
      rw [if_neg hc]
      exact ih _ _ (fun c' hc' => h c' (by simp [hc']))

/-- Phase 1 never drives the remaining budget negative. -/
theorem phase1_r_nonneg (l : List PowerConstraint) (a : String → ℤ)
    (r : ℤ) (hr : 0 ≤ r) : 0 ≤ (phase1 l a r).2 := by
  induction l generalizing a r with
  | nil => exact hr
  | cons c rest ih =>
    by_cases hc : c.priority = .critical
    · simp only [phase1]
      rw [if_pos hc]
      exact ih _ _ (by have := min_le_right c.minPower r; omega)
    · simp only [phase1]
      rw [if_neg hc]
      exact ih _ _ hr

/-- Phase 1 conserves the budget: starting from an allocation that is
zero on every Critical id, the total allocated plus the remaining
budget is the initial total plus the initial budget. -/
theorem phase1_sum (l : List PowerConstraint) (a : String → ℤ) (r : ℤ)
    (hnd : (l.map (fun c => c.buildingId)).Nodup)
    (hzero : ∀ c ∈ l, c.priority = .critical → a c.buildingId = 0) :
    totalUsed l (phase1 l a r).1 + (phase1 l a r).2 = totalUsed l a + r := by
  induction l generalizing a r with
  | nil => simp [phase1, totalUsed]
  | cons c rest ih =>
    rw [List.map_cons, List.nodup_cons] at hnd
    have hne : ∀ c' ∈ rest, c'.buildingId ≠ c.buildingId := by
      intro c' hc' heq
      exact hnd.1 (heq ▸ List.mem_map_of_mem _ hc')
    by_cases hc : c.priority = .critical
    · simp only [phase1]
      rw [if_pos hc]
      have hfin : (phase1 rest (updAlloc a c.buildingId (min c.minPower r))
          (r - min c.minPower r)).1 c.buildingId = min c.minPower r := by
        rw [phase1_untouched _ _ _ _
          (fun c' hc' _ => hne c' hc'), updAlloc_same]
      have hz' : ∀ c' ∈ rest, c'.priority = .critical →
          updAlloc a c.buildingId (min c.minPower r) c'.buildingId = 0 := by
        intro c' hc' hcrit
        rw [updAlloc_other _ _ _ _ (hne c' hc')]
        exact hzero c' (by simp [hc']) hcrit
      have hcongr : totalUsed rest
          (updAlloc a c.buildingId (min c.minPower r)) = totalUsed rest a :=
        totalUsed_congr _ _ _
          (fun c' hc' => updAlloc_other _ _ _ _ (hne c' hc'))
      have hih := ih (updAlloc a c.buildingId (min c.minPower r))
        (r - min c.minPower r) hnd.2 hz'
      rw [hcongr] at hih
      rw [totalUsed_cons, totalUsed_cons, hfin, hzero c (by simp) hc]
      omega
    · simp only [phase1]
      rw [if_neg hc]
      have hfin : (phase1 rest a r).1 c.buildingId = a c.buildingId :=
        phase1_untouched _ _ _ _ (fun c' hc' _ => hne c' hc')
      have hih := ih a r hnd.2
        (fun c' hc' hcrit => hzero c' (by simp [hc']) hcrit)
      rw [totalUsed_cons, totalUsed_cons, hfin]
      omega

/-- After phase 1 every Critical constraint holds between 0 and its
minimum power. -/
theorem phase1_critical_bound (l : List PowerConstraint) (a : String → ℤ)
    (r : ℤ) (hnd : (l.map (fun c => c.buildingId)).Nodup) (hr : 0 ≤ r) :
    ∀ c ∈ l, c.priority = .critical → 0 ≤ c.minPower →
      0 ≤ (phase1 l a r).1 c.buildingId ∧
      (phase1 l a r).1 c.buildingId ≤ c.minPower := by
  induction l generalizing a r with
  | nil => intro c hc; exact absurd hc (by simp)
  | cons d rest ih =>
    rw [List.map_cons, List.nodup_cons] at hnd
    have hne : ∀ c' ∈ rest, c'.buildingId ≠ d.buildingId := by
      intro c' hc' heq
      exact hnd.1 (heq ▸ List.mem_map_of_mem _ hc')
    intro c hc hcrit hmin
    rcases List.mem_cons.mp hc with rfl | hc
    · simp only [phase1]
      rw [if_pos hcrit]
      have hfin : (phase1 rest (updAlloc a c.buildingId (min c.minPower r))
          (r - min c.minPower r)).1 c.buildingId = min c.minPower r := by
        rw [phase1_untouched _ _ _ _ (fun c' hc' _ => hne c' hc'),
          updAlloc_same]
      rw [hfin]
      constructor
      · exact le_min hmin hr
      · exact min_le_left _ _
    · by_cases hd : d.priority = .critical
      · simp only [phase1]
        rw [if_pos hd]
        exact ih _ _ hnd.2 (by have := min_le_right d.minPower r; omega)
          c hc hcrit hmin
      · simp only [phase1]
        rw [if_neg hd]
        exact ih _ _ hnd.2 hr c hc hcrit hmin

/-- The sum of Critical minima is non-negative when the minima are. -/
theorem criticalMinSum_nonneg (l : List PowerConstraint)
    (hmin : ∀ c ∈ l, c.priority = .critical → 0 ≤ c.minPower) :
    0 ≤ criticalMinSum l := by
  induction l with
  | nil => simp [criticalMinSum]
  | cons e tail ihe =>
    rw [criticalMinSum]
    have h1 : 0 ≤ criticalMinSum tail :=
      ihe (fun c' hc' hcrit => hmin c' (by simp [hc']) hcrit)
    by_cases he : e.priority = .critical
    · have := hmin e (by simp) he
      rw [if_pos he]; omega
    · rw [if_neg he]; omega

/-- If the budget covers the sum of all Critical minima, phase 1 gives
every Critical constraint exactly its minimum power. -/
theorem phase1_exact (l : List PowerConstraint) (a : String → ℤ) (r : ℤ)
    (hnd : (l.map (fun c => c.buildingId)).Nodup)
    (hmin : ∀ c ∈ l, c.priority = .critical → 0 ≤ c.minPower)
    (hr : criticalMinSum l ≤ r) :
    ∀ c ∈ l, c.priority = .critical →
      (phase1 l a r).1 c.buildingId = c.minPower := by
  induction l generalizing a r with
  | nil => intro c hc; exact absurd hc (by simp)
  | cons d rest ih =>
    rw [List.map_cons, List.nodup_cons] at hnd
    have hne : ∀ c' ∈ rest, c'.buildingId ≠ d.buildingId := by
      intro c' hc' heq
      exact hnd.1 (heq ▸ List.mem_map_of_mem _ hc')
    have hrestnn : 0 ≤ criticalMinSum rest :=
      criticalMinSum_nonneg rest
        (fun c' hc' hcrit => hmin c' (by simp [hc']) hcrit)
    intro c hc hcrit
    by_cases hd : d.priority = .critical
    · have hsum : d.minPower + criticalMinSum rest ≤ r := by
        rw [criticalMinSum, if_pos hd] at hr
        exact hr
      have hminr : min d.minPower r = d.minPower :=
        min_eq_left (by omega)
      rcases List.mem_cons.mp hc with rfl | hc
      · simp only [phase1]
        rw [if_pos hcrit]
        rw [phase1_untouched _ _ _ _ (fun c' hc' _ => hne c' hc'),
          hminr, updAlloc_same]
      · simp only [phase1]
        rw [if_pos hd, hminr]
        exact ih _ _ hnd.2
          (fun c' hc' hcrit' => hmin c' (by simp [hc']) hcrit')
          (by omega) c hc hcrit
    · rcases List.mem_cons.mp hc with rfl | hc
      · exact absurd hcrit hd
      · simp only [phase1]
        rw [if_neg hd]
        rw [criticalMinSum, if_neg hd] at hr
        exact ih _ _ hnd.2
          (fun c' hc' hcrit' => hmin c' (by simp [hc']) hcrit')
          (by omega) c hc hcrit

/-! Phase-2 lemmas. -/

/-- Phase 2 writes only the ids of the High constraints it scans. -/
theorem phase2_untouched (l : List PowerConstraint) (a : String → ℤ)
    (r : ℤ) (x : String)
    (h : ∀ c ∈ l, c.priority = .high → c.buildingId ≠ x) :
    (phase2 l a r).1 x = a x := by
  induction l generalizing a r with
  | nil => rfl
  | cons c rest ih =>
    by_cases hc : c.priority = .high
    · simp only [phase2]
      rw [if_pos hc, ih _ _ (fun c' hc' => h c' (by simp [hc']))]
      exact updAlloc_other _ _ _ _ (Ne.symm (h c (by simp) hc))
    · simp only [phase2]
      rw [if_neg hc]
      exact ih _ _ (fun c' hc' => h c' (by simp [hc']))

/-- Phase 2 never drives the remaining budget negative. -/
theorem phase2_r_nonneg (l : List PowerConstraint) (a : String → ℤ)
    (r : ℤ) (hr : 0 ≤ r) : 0 ≤ (phase2 l a r).2 := by
  induction l generalizing a r with
  | nil => exact hr
  | cons c rest ih =>
    by_cases hc : c.priority = .high
    · simp only [phase2]
      rw [if_pos hc]
      exact ih _ _
        (by have := min_le_right (c.minPower - a c.buildingId) r; omega)
    · simp only [phase2]
      rw [if_neg hc]
      exact ih _ _ hr

/-- Phase 2 conserves the budget. -/
theorem phase2_sum (l : List PowerConstraint) (a : String → ℤ) (r : ℤ)
    (hnd : (l.map (fun c => c.buildingId)).Nodup) :
    totalUsed l (phase2 l a r).1 + (phase2 l a r).2 = totalUsed l a + r := by
  induction l generalizing a r with
  | nil => simp [phase2, totalUsed]
  | cons c rest ih =>
    rw [List.map_cons, List.nodup_cons] at hnd
    have hne : ∀ c' ∈ rest, c'.buildingId ≠ c.buildingId := by
      intro c' hc' heq
      exact hnd.1 (heq ▸ List.mem_map_of_mem _ hc')
    by_cases hc : c.priority = .high
    · simp only [phase2]
      rw [if_pos hc]
      have hfin : (phase2 rest
          (updAlloc a c.buildingId
            (a c.buildingId + min (c.minPower - a c.buildingId) r))
          (r - min (c.minPower - a c.buildingId) r)).1 c.buildingId =
          a c.buildingId + min (c.minPower - a c.buildingId) r := by
        rw [phase2_untouched _ _ _ _ (fun c' hc' _ => hne c' hc'),
          updAlloc_same]
      have hcongr : totalUsed rest
          (updAlloc a c.buildingId
            (a c.buildingId + min (c.minPower - a c.buildingId) r)) =
          totalUsed rest a :=
        totalUsed_congr _ _ _
          (fun c' hc' => updAlloc_other _ _ _ _ (hne c' hc'))
      have hih := ih (updAlloc a c.buildingId
          (a c.buildingId + min (c.minPower - a c.buildingId) r))
        (r - min (c.minPower - a c.buildingId) r) hnd.2
      rw [hcongr] at hih
      rw [totalUsed_cons, totalUsed_cons, hfin]
      omega
    · simp only [phase2]
      rw [if_neg hc]
      have hfin : (phase2 rest a r).1 c.buildingId = a c.buildingId :=
        phase2_untouched _ _ _ _ (fun c' hc' _ => hne c' hc')
      have hih := ih a r hnd.2
      rw [totalUsed_cons, totalUsed_cons, hfin]
      omega

/-- After phase 2 every High constraint that started at zero holds
between 0 and its minimum power. -/
theorem phase2_high_bound (l : List PowerConstraint) (a : String → ℤ)
    (r : ℤ) (hnd : (l.map (fun c => c.buildingId)).Nodup) (hr : 0 ≤ r) :
    ∀ c ∈ l, c.priority = .high → a c.buildingId = 0 → 0 ≤ c.minPower →
      0 ≤ (phase2 l a r).1 c.buildingId ∧
      (phase2 l a r).1 c.buildingId ≤ c.minPower := by
  induction l generalizing a r with
  | nil => intro c hc; exact absurd hc (by simp)
  | cons d rest ih =>
    rw [List.map_cons, List.nodup_cons] at hnd
    have hne : ∀ c' ∈ rest, c'.buildingId ≠ d.buildingId := by
      intro c' hc' heq
      exact hnd.1 (heq ▸ List.mem_map_of_mem _ hc')
    intro c hc hhigh hzero hmin
    rcases List.mem_cons.mp hc with rfl | hc
    · simp only [phase2]
      rw [if_pos hhigh]
      have hfin : (phase2 rest
          (updAlloc a c.buildingId
            (a c.buildingId + min (c.minPower - a c.buildingId) r))
          (r - min (c.minPower - a c.buildingId) r)).1 c.buildingId =
          a c.buildingId + min (c.minPower - a c.buildingId) r := by
        rw [phase2_untouched _ _ _ _ (fun c' hc' _ => hne c' hc'),
          updAlloc_same]
      rw [hfin, hzero]
      constructor
      · have : (0 : ℤ) ≤ min (c.minPower - 0) r := le_min (by omega) hr
        omega
      · have := min_le_left (c.minPower - a c.buildingId) r
        rw [hzero] at this
        omega
    · by_cases hd : d.priority = .high
      · simp only [phase2]
        rw [if_pos hd]
        refine ih _ _ hnd.2
          (by have := min_le_right (d.minPower - a d.buildingId) r; omega)
          c hc hhigh ?_ hmin
        rw [updAlloc_other _ _ _ _ (hne c hc)]
        exact hzero
      · simp only [phase2]
        rw [if_neg hd]
        exact ih _ _ hnd.2 hr c hc hhigh hzero hmin

/-! Phase-3 (distribution) lemmas. -/

/-- Every capacity triple comes from a constraint with positive
remaining capacity. -/
theorem capacityList_mem (cs : List PowerConstraint) (a : String → ℤ) :
    ∀ t ∈ capacityList cs a, ∃ c ∈ cs, t.1 = c.buildingId ∧
      t.2.1 = c.maxPower - a c.buildingId ∧ 0 < t.2.1 := by
  intro t ht
  rw [capacityList, List.mem_filterMap] at ht
  obtain ⟨c, hc, hsome⟩ := ht
  dsimp only at hsome
  by_cases hpos : c.maxPower - a c.buildingId > 0
  · rw [if_pos hpos] at hsome
    obtain rfl := Option.some.inj hsome
    exact ⟨c, hc, rfl, rfl, hpos⟩
  · rw [if_neg hpos] at hsome
    exact Option.noConfusion hsome

/-- The capacity ids form a sublist of the constraint ids. -/
theorem capacityList_ids_sublist (cs : List PowerConstraint)
    (a : String → ℤ) :
    ((capacityList cs a).map (fun t => t.1)).Sublist
      (cs.map (fun c => c.buildingId)) := by
  induction cs with
  | nil => simp [capacityList]
  | cons c rest ih =>
    rw [capacityList, List.filterMap_cons]
    dsimp only
    by_cases hpos : c.maxPower - a c.buildingId > 0
    · rw [if_pos hpos, List.map_cons, List.map_cons]
      exact (ih).cons₂ c.buildingId
    · rw [if_neg hpos, List.map_cons]
      exact (ih).cons c.buildingId

/-- The distribution loop only increases allocations (every capacity
is positive). -/
theorem distLoop_mono (caps : List (String × ℤ × ℕ)) (a : String → ℤ)
    (r : ℤ) (hpos : ∀ t ∈ caps, 0 < t.2.1) (x : String) :
    a x ≤ distLoop caps a r x := by
  induction caps generalizing a r with
  | nil => exact le_refl _
  | cons t rest ih =>
    obtain ⟨id, ct, pv⟩ := t
    by_cases hr : r ≤ 0
    · simp only [distLoop]
      rw [if_pos hr]
    · simp only [distLoop]
      rw [if_neg hr]
      refine le_trans ?_ (ih _ _ (fun t' ht' => hpos t' (by simp [ht'])))
      by_cases hx : x = id
      · subst hx
        rw [updAlloc_same]
        have h1 : (0 : ℤ) < ct := by simpa using hpos (x, ct, pv) (by simp)
        have h2 : (0 : ℤ) ≤ min ct r := le_min (by omega) (by omega)
        omega
      · rw [updAlloc_other _ _ _ _ hx]

/-- The distribution loop leaves ids outside the capacity list alone. -/
theorem distLoop_untouched (caps : List (String × ℤ × ℕ))
    (a : String → ℤ) (r : ℤ) (x : String)
    (h : ∀ t ∈ caps, t.1 ≠ x) : distLoop caps a r x = a x := by
  induction caps generalizing a r with
  | nil => rfl
  | cons t rest ih =>
    obtain ⟨id, ct, pv⟩ := t
    by_cases hr : r ≤ 0
    · simp only [distLoop]
      rw [if_pos hr]
    · simp only [distLoop]
      rw [if_neg hr, ih _ _ (fun t' ht' => h t' (by simp [ht']))]
      exact updAlloc_other _ _ _ _
        (Ne.symm (h (id, ct, pv) (by simp)))

/-- With pairwise-distinct capacity ids, the loop adds at most the
listed capacity to each id. -/
theorem distLoop_le_add (caps : List (String × ℤ × ℕ)) (a : String → ℤ)
    (r : ℤ) (hnd : (caps.map (fun t => t.1)).Nodup)
    (hpos : ∀ t ∈ caps, 0 < t.2.1) :
    ∀ t ∈ caps, distLoop caps a r t.1 ≤ a t.1 + t.2.1 := by
  induction caps generalizing a r with
  | nil => intro t ht; exact absurd ht (by simp)
  | cons u rest ih =>
    obtain ⟨id, ct, pv⟩ := u
    rw [List.map_cons, List.nodup_cons] at hnd
    have hne : ∀ t' ∈ rest, t'.1 ≠ id := by
      intro t' ht' heq
      apply hnd.1
      rw [← heq]
      exact List.mem_map.mpr ⟨t', ht', rfl⟩
    intro t ht
    by_cases hr : r ≤ 0
    · simp only [distLoop]
      rw [if_pos hr]
      have := hpos t ht
      omega
    · simp only [distLoop]
      rw [if_neg hr]
      rcases List.mem_cons.mp ht with rfl | ht
      · rw [distLoop_untouched _ _ _ _ hne, updAlloc_same]
        have := min_le_left ct r
        dsimp only
        omega
      · have hih := ih (updAlloc a id (a id + min ct r)) (r - min ct r)
          hnd.2 (fun t' ht' => hpos t' (by simp [ht'])) t ht
        rw [updAlloc_other _ _ _ _ (hne t ht)] at hih
        exact hih

/-- The distribution loop adds at most the remaining budget to the
total allocation over any id-distinct constraint list covering the
capacity ids. -/
theorem distLoop_sum_le (caps : List (String × ℤ × ℕ))
    (l : List PowerConstraint) (a : String → ℤ) (r : ℤ)
    (hnd : (l.map (fun c => c.buildingId)).Nodup)
    (hsub : ∀ t ∈ caps, t.1 ∈ l.map (fun c => c.buildingId))
    (hr : 0 ≤ r) :
    totalUsed l (distLoop caps a r) ≤ totalUsed l a + r := by
  induction caps generalizing a r with
  | nil => simp [distLoop]; omega
  | cons t rest ih =>
    obtain ⟨id, ct, pv⟩ := t
    by_cases hrz : r ≤ 0
    · simp only [distLoop]
      rw [if_pos hrz]
      omega
    · simp only [distLoop]
      rw [if_neg hrz]
      have hupd : totalUsed l (updAlloc a id (a id + min ct r)) =
          totalUsed l a + min ct r :=
        totalUsed_update_add l a id (min ct r) hnd
          (hsub (id, ct, pv) (by simp))
      have hih := ih (updAlloc a id (a id + min ct r)) (r - min ct r)
        (fun t' ht' => hsub t' (by simp [ht']))
        (by have := min_le_right ct r; omega)
      rw [hupd] at hih
      have := min_le_right ct r
      omega

/-- criticalMinSum as a mapped sum, hence invariant under
permutation. -/
theorem criticalMinSum_eq_sum (l : List PowerConstraint) :
    criticalMinSum l =
      (l.map (fun c => if c.priority = .critical then c.minPower else 0)).sum := by
  induction l with
  | nil => rfl
  | cons c rest ih => rw [criticalMinSum, List.map_cons, List.sum_cons, ih]

theorem criticalMinSum_perm (l l' : List PowerConstraint) (h : l.Perm l') :
    criticalMinSum l = criticalMinSum l' := by
  rw [criticalMinSum_eq_sum, criticalMinSum_eq_sum]
  exact (h.map _).sum_eq

/-- Claim C2: for every id-distinct set of building constraints with
0 ≤ min_power ≤ max_power (as _initialize_constraints always produces)
and every non-negative total power budget, after solve() every
building's allocation lies between 0 and its power requirement
(max_power) and the sum of all allocated power is at most the budget. -/
theorem solve_budget_invariant (cs : List PowerConstraint) (budget : ℤ)
    (hids : (cs.map (fun c => c.buildingId)).Nodup)
    (hwf : ∀ c ∈ cs, 0 ≤ c.minPower ∧ c.minPower ≤ c.maxPower)
    (hb : 0 ≤ budget) :
    (∀ c ∈ cs, 0 ≤ solve cs budget c.buildingId ∧
      solve cs budget c.buildingId ≤ c.maxPower) ∧
    totalUsed cs (solve cs budget) ≤ budget := by
  have hperm : (sortByPriorityDesc cs).Perm cs := sortByPriorityDesc_perm cs
  have hids' : ((sortByPriorityDesc cs).map (fun c => c.buildingId)).Nodup :=
    ((hperm.map _).nodup_iff).mpr hids
  have hwf' : ∀ c ∈ sortByPriorityDesc cs,
      0 ≤ c.minPower ∧ c.minPower ≤ c.maxPower :=
    fun c hc => hwf c (hperm.mem_iff.mp hc)
  set p1 := phase1 (sortByPriorityDesc cs) (fun _ => 0) budget with hp1def
  set p2 := phase2 (sortByPriorityDesc cs) p1.1 p1.2 with hp2def
  have hsolve : solve cs budget =
      if p2.2 > 0 then
        distributeRemainingPower p2.1 (sortByPriorityDesc cs) p2.2
      else p2.1 := rfl
  have hr1 : 0 ≤ p1.2 := phase1_r_nonneg _ _ _ hb
  have hsum1 : totalUsed (sortByPriorityDesc cs) p1.1 + p1.2 = budget := by
    have := phase1_sum (sortByPriorityDesc cs) (fun _ => 0) budget hids'
      (fun _ _ _ => rfl)
    rwa [totalUsed_zero, zero_add] at this
  have hp1c : ∀ c ∈ sortByPriorityDesc cs,
      0 ≤ p1.1 c.buildingId ∧ p1.1 c.buildingId ≤ c.maxPower ∧
      (c.priority ≠ .critical → p1.1 c.buildingId = 0) := by
    intro c hc
    by_cases hcrit : c.priority = .critical
    · have hbd := phase1_critical_bound (sortByPriorityDesc cs)
        (fun _ => 0) budget hids' hb c hc hcrit (hwf' c hc).1
      exact ⟨hbd.1, le_trans hbd.2 (hwf' c hc).2,
        fun h => absurd hcrit h⟩
    · have huntch : p1.1 c.buildingId = 0 := by
        refine phase1_untouched _ _ _ _ ?_
        intro c' hc' hcrit' heq
        have hcc : c' = c := nodup_id_unique _ hids' c' hc' c hc heq
        rw [hcc] at hcrit'
        exact hcrit hcrit'
      rw [huntch]
      have h1 := (hwf' c hc).1
      have h2 := (hwf' c hc).2
      exact ⟨le_refl 0, by omega, fun _ => rfl⟩
  have hr2 : 0 ≤ p2.2 := phase2_r_nonneg _ _ _ hr1
  have hsum2 : totalUsed (sortByPriorityDesc cs) p2.1 + p2.2 = budget := by
    have h := phase2_sum (sortByPriorityDesc cs) p1.1 p1.2 hids'
    rw [← hp2def] at h
    omega
  have hp2c : ∀ c ∈ sortByPriorityDesc cs,
      0 ≤ p2.1 c.buildingId ∧ p2.1 c.buildingId ≤ c.maxPower := by
    intro c hc
    by_cases hhigh : c.priority = .high
    · have hzero : p1.1 c.buildingId = 0 :=
        (hp1c c hc).2.2 (by rw [hhigh]; exact fun h => Priority.noConfusion h)
      have hbd := phase2_high_bound (sortByPriorityDesc cs) p1.1 p1.2
        hids' hr1 c hc hhigh hzero (hwf' c hc).1
      exact ⟨hbd.1, le_trans hbd.2 (hwf' c hc).2⟩
    · have huntch : p2.1 c.buildingId = p1.1 c.buildingId := by
        refine phase2_untouched _ _ _ _ ?_
        intro c' hc' hhigh' heq
        have hcc : c' = c := nodup_id_unique _ hids' c' hc' c hc heq
        rw [hcc] at hhigh'
        exact hhigh hhigh'
      rw [huntch]
      exact ⟨(hp1c c hc).1, (hp1c c hc).2.1⟩
  by_cases hbr : p2.2 > 0
  · have hsolve2 : solve cs budget =
        distLoop (sortByThirdDesc (capacityList (sortByPriorityDesc cs) p2.1))
          p2.1 p2.2 := by
      rw [hsolve, if_pos hbr]; rfl
    have hcapsperm :
        (sortByThirdDesc (capacityList (sortByPriorityDesc cs) p2.1)).Perm
          (capacityList (sortByPriorityDesc cs) p2.1) :=
      sortByThirdDesc_perm _
    have hctpos : ∀ t ∈ sortByThirdDesc
        (capacityList (sortByPriorityDesc cs) p2.1), 0 < t.2.1 := by
      intro t ht
      obtain ⟨c', _, _, _, hpos⟩ :=
        capacityList_mem _ p2.1 t (hcapsperm.subset ht)
      exact hpos
    have hcnd : ((sortByThirdDesc
        (capacityList (sortByPriorityDesc cs) p2.1)).map
          (fun t => t.1)).Nodup := by
      have h1 : ((capacityList (sortByPriorityDesc cs) p2.1).map
          (fun t => t.1)).Nodup :=
        List.Nodup.sublist (capacityList_ids_sublist _ p2.1) hids'
      exact ((hcapsperm.map _).nodup_iff).mpr h1
    have hsubids : ∀ t ∈ sortByThirdDesc
        (capacityList (sortByPriorityDesc cs) p2.1),
        t.1 ∈ (sortByPriorityDesc cs).map (fun c => c.buildingId) := by
      intro t ht
      obtain ⟨c', hc', hid, _, _⟩ :=
        capacityList_mem _ p2.1 t (hcapsperm.subset ht)
      rw [hid]
      exact List.mem_map_of_mem _ hc'
    constructor
    · intro c hc
      have hc' : c ∈ sortByPriorityDesc cs := hperm.mem_iff.mpr hc
      rw [hsolve2]
      constructor
      · exact le_trans (hp2c c hc').1
          (distLoop_mono _ p2.1 p2.2 hctpos c.buildingId)
      · by_cases hin : c.buildingId ∈ (sortByThirdDesc
            (capacityList (sortByPriorityDesc cs) p2.1)).map (fun t => t.1)
        · obtain ⟨t, ht, htid⟩ := List.mem_map.mp hin
          have hle := distLoop_le_add _ p2.1 p2.2 hcnd hctpos t ht
          obtain ⟨c', hc2, hid, hct, _⟩ :=
            capacityList_mem _ p2.1 t (hcapsperm.subset ht)
          have hcc : c' = c :=
            nodup_id_unique _ hids' c' hc2 c hc' (by rw [← hid, htid])
          rw [htid] at hle
          rw [hcc] at hct
          omega
        · rw [distLoop_untouched _ p2.1 p2.2 c.buildingId
            (fun t ht heq => hin (heq ▸ List.mem_map.mpr ⟨t, ht, rfl⟩))]
          exact (hp2c c hc').2
    · rw [hsolve2,
        totalUsed_perm cs (sortByPriorityDesc cs) hperm.symm]
      have := distLoop_sum_le _ (sortByPriorityDesc cs) p2.1 p2.2 hids'
        hsubids (le_of_lt hbr)
      omega
  · have hsolve2 : solve cs budget = p2.1 := by rw [hsolve, if_neg hbr]
    constructor
    · intro c hc
      rw [hsolve2]
      exact hp2c c (hperm.mem_iff.mpr hc)
    · rw [hsolve2, totalUsed_perm cs (sortByPriorityDesc cs) hperm.symm]
      omega

/-- Witness for C2: the concrete scenario constraints with budget 100. -/
theorem solve_budget_invariant_witness :
    (∀ c ∈ scenarioConstraints, 0 ≤ solve scenarioConstraints 100 c.buildingId ∧
      solve scenarioConstraints 100 c.buildingId ≤ c.maxPower) ∧
    totalUsed scenarioConstraints (solve scenarioConstraints 100) ≤ 100 :=
  solve_budget_invariant scenarioConstraints 100 (by decide) (by decide)
    (by decide)

/-- Claim C4: if the total budget is at least the sum of all Critical
constraints' minimum powers (minima non-negative, ids distinct), then
after solve() every Critical building's allocation is at least its
minimum power. -/
theorem solve_critical_minimum (cs : List PowerConstraint) (budget : ℤ)
    (hids : (cs.map (fun c => c.buildingId)).Nodup)
    (hmin : ∀ c ∈ cs, 0 ≤ c.minPower)
    (hb : criticalMinSum cs ≤ budget) :
    ∀ c ∈ cs, c.priority = .critical →
      c.minPower ≤ solve cs budget c.buildingId := by
  have hperm : (sortByPriorityDesc cs).Perm cs := sortByPriorityDesc_perm cs
  have hids' : ((sortByPriorityDesc cs).map (fun c => c.buildingId)).Nodup :=
    ((hperm.map _).nodup_iff).mpr hids
  have hmin' : ∀ c ∈ sortByPriorityDesc cs, 0 ≤ c.minPower :=
    fun c hc => hmin c (hperm.mem_iff.mp hc)
  have hb' : criticalMinSum (sortByPriorityDesc cs) ≤ budget := by
    rw [criticalMinSum_perm _ cs hperm]
    exact hb
  set p1 := phase1 (sortByPriorityDesc cs) (fun _ => 0) budget with hp1def
  set p2 := phase2 (sortByPriorityDesc cs) p1.1 p1.2 with hp2def
  have hsolve : solve cs budget =
      if p2.2 > 0 then
        distributeRemainingPower p2.1 (sortByPriorityDesc cs) p2.2
      else p2.1 := rfl
  intro c hc hcrit
  have hc' : c ∈ sortByPriorityDesc cs := hperm.mem_iff.mpr hc
  have hex : p1.1 c.buildingId = c.minPower :=
    phase1_exact (sortByPriorityDesc cs) (fun _ => 0) budget hids'
      (fun c' hc2 _ => hmin' c' hc2) hb' c hc' hcrit
  have hp2v : p2.1 c.buildingId = c.minPower := by
    rw [hp2def]
    rw [phase2_untouched _ _ _ _ ?_]
    · exact hex
    · intro c' hc2 hhigh heq
      have hcc : c' = c := nodup_id_unique _ hids' c' hc2 c hc' heq
      rw [hcc, hcrit] at hhigh
      exact Priority.noConfusion hhigh
  by_cases hbr : p2.2 > 0
  · have hsolve2 : solve cs budget =
        distLoop (sortByThirdDesc (capacityList (sortByPriorityDesc cs) p2.1))
          p2.1 p2.2 := by
      rw [hsolve, if_pos hbr]; rfl
    have hcapsperm :
        (sortByThirdDesc (capacityList (sortByPriorityDesc cs) p2.1)).Perm
          (capacityList (sortByPriorityDesc cs) p2.1) :=
      sortByThirdDesc_perm _
    have hctpos : ∀ t ∈ sortByThirdDesc
        (capacityList (sortByPriorityDesc cs) p2.1), 0 < t.2.1 := by
      intro t ht
      obtain ⟨c', _, _, _, hpos⟩ :=
        capacityList_mem _ p2.1 t (hcapsperm.subset ht)
      exact hpos
    rw [hsolve2]
    calc c.minPower = p2.1 c.buildingId := hp2v.symm
      _ ≤ _ := distLoop_mono _ p2.1 p2.2 hctpos c.buildingId
  · have hsolve2 : solve cs budget = p2.1 := by rw [hsolve, if_neg hbr]
    rw [hsolve2, hp2v]

/-- Witness for C4: the scenario constraints with budget 200, which
covers the single Critical minimum 120; the Hospital then receives at
least 120. -/
theorem solve_critical_minimum_witness :
    (120 : ℤ) ≤ solve scenarioConstraints 200 "hospital_1" :=
  solve_critical_minimum scenarioConstraints 200 (by decide) (by decide)
    (by decide)
    { buildingId := "hospital_1", minPower := 120, maxPower := 150,
      priority := .critical }
    (by decide) (by decide)

/-! ### Graph and path basics (for claim C3) -/

theorem contains_iff_mem {α : Type} [BEq α] [LawfulBEq α] (l : List α)
    (a : α) : l.contains a = true ↔ a ∈ l := by
  simp [List.contains]

theorem stepCost_ge_one (c : CityState) : 1 ≤ stepCost c := by
  unfold stepCost weatherModifier
  cases c.weather <;> norm_num

theorem stepCost_pos (c : CityState) : 0 < stepCost c :=
  lt_of_lt_of_le one_pos (stepCost_ge_one c)

theorem pathCost_cons_cons (c : CityState) (p q : Pos) (rest : List Pos) :
    pathCost c (p :: q :: rest) = stepCost c + pathCost c (q :: rest) := rfl

theorem pathCost_nonneg (c : CityState) : ∀ l : List Pos, 0 ≤ pathCost c l
  | [] => le_refl 0
  | [_] => le_refl 0
  | p :: q :: rest => by
    rw [pathCost_cons_cons]
    have h1 := stepCost_pos c
    have h2 := pathCost_nonneg c (q :: rest)
    linarith

theorem getNeighbors_walkable (c : CityState) (p q : Pos)
    (h : q ∈ getNeighbors c p) : c.walkableP q = true :=
  (List.mem_filter.mp h).2

theorem getNeighbors_cases (c : CityState) (p q : Pos)
    (h : q ∈ getNeighbors c p) :
    (q.1 = p.1 ∧ q.2 = p.2 - 1) ∨ (q.1 = p.1 + 1 ∧ q.2 = p.2) ∨
    (q.1 = p.1 ∧ q.2 = p.2 + 1) ∨ (q.1 = p.1 - 1 ∧ q.2 = p.2) := by
  have hm := (List.mem_filter.mp h).1
  obtain ⟨d, hd, hq⟩ := List.mem_map.mp hm
  rw [directions] at hd
  simp only [List.mem_cons, List.not_mem_nil, or_false] at hd
  rcases hd with rfl | rfl | rfl | rfl <;> subst hq <;> simp <;> omega

theorem getNeighbors_ne (c : CityState) (p q : Pos)
    (h : q ∈ getNeighbors c p) : q ≠ p := by
  intro hc
  rcases getNeighbors_cases c p q h with ⟨h1, h2⟩ | ⟨h1, h2⟩ | ⟨h1, h2⟩ |
    ⟨h1, h2⟩ <;> rw [hc] at h1 h2 <;> omega

theorem getNeighbors_length_le (c : CityState) (p : Pos) :
    (getNeighbors c p).length ≤ 4 := by
  have h := List.length_filter_le (fun q => c.walkableP q)
    ((directions.map (fun d => (p.1 + d.1, p.2 + d.2))))
  simpa [getNeighbors, directions] using h

theorem getNeighbors_nodup (c : CityState) (p : Pos) :
    (getNeighbors c p).Nodup := by
  refine List.Nodup.filter _ ?_
  refine List.Nodup.map ?_ ?_
  · intro a b hab
    have h1 := congrArg Prod.fst hab
    have h2 := congrArg Prod.snd hab
    simp at h1 h2
    exact Prod.ext h1 h2
  · rw [directions]
    decide

theorem isPathB_single (c : CityState) (p : Pos) :
    isPathB c [p] = c.walkableP p := rfl

theorem isPathB_cons_cons (c : CityState) (p q : Pos) (rest : List Pos) :
    isPathB c (p :: q :: rest) =
      ((getNeighbors c p).contains q && isPathB c (q :: rest)) := rfl

theorem isPathB_last_walkable (c : CityState) :
    ∀ l : List Pos, isPathB c l = true → ∀ z, l.getLast? = some z →
      c.walkableP z = true
  | [] => by intro h; exact absurd h (by simp [isPathB])
  | [p] => by
    intro h z hz
    obtain rfl : p = z := by simpa using hz
    exact h
  | p :: q :: rest => by
    intro h z hz
    rw [isPathB_cons_cons, Bool.and_eq_true] at h
    refine isPathB_last_walkable c (q :: rest) h.2 z ?_
    simpa [List.getLast?_cons_cons] using hz

theorem isPathB_append_single (c : CityState) :
    ∀ (l : List Pos) (p n : Pos), isPathB c l = true →
      l.getLast? = some p → n ∈ getNeighbors c p →
      isPathB c (l ++ [n]) = true
  | [] => by intro p n h; exact absurd h (by simp [isPathB])
  | [x] => by
    intro p n h hl hn
    obtain rfl : x = p := by simpa using hl
    rw [List.cons_append, List.nil_append, isPathB_cons_cons,
      Bool.and_eq_true]
    exact ⟨(contains_iff_mem _ _).mpr hn,
      by rw [isPathB_single]; exact getNeighbors_walkable c x n hn⟩
  | x :: y :: rest => by
    intro p n h hl hn
    rw [isPathB_cons_cons, Bool.and_eq_true] at h
    have hl' : (y :: rest).getLast? = some p := by
      simpa [List.getLast?_cons_cons] using hl
    have hrec := isPathB_append_single c (y :: rest) p n h.2 hl' hn
    rw [List.cons_append] at hrec
    rw [List.cons_append, List.cons_append, isPathB_cons_cons,
      Bool.and_eq_true]
    exact ⟨h.1, hrec⟩

theorem pathCost_append_single (c : CityState) :
    ∀ (l : List Pos) (p n : Pos), l.getLast? = some p →
      pathCost c (l ++ [n]) = pathCost c l + stepCost c
  | [] => by intro p n h; exact absurd h (by simp)
  | [x] => by
    intro p n _
    show pathCost c [x, n] = pathCost c [x] + stepCost c
    rw [pathCost_cons_cons]
    show stepCost c + 0 = 0 + stepCost c
    ring
  | x :: y :: rest => by
    intro p n hl
    have hl' : (y :: rest).getLast? = some p := by
      simpa [List.getLast?_cons_cons] using hl
    have hrec := pathCost_append_single c (y :: rest) p n hl'
    rw [List.cons_append] at hrec
    rw [List.cons_append, List.cons_append, pathCost_cons_cons, hrec,
      pathCost_cons_cons]
    ring

theorem validRoute_extend (c : CityState) (s p n : Pos) (l : List Pos)
    (h : ValidRoute c s p l) (hn : n ∈ getNeighbors c p) :
    ValidRoute c s n (l ++ [n]) := by
  obtain ⟨hpath, hhead, hlast⟩ := h
  refine ⟨isPathB_append_single c l p n hpath hlast hn, ?_, ?_⟩
  · cases l with
    | nil => exact absurd hlast (by simp)
    | cons a tail => simpa using hhead
  · simp

theorem validRoute_cost_extend (c : CityState) (s p n : Pos)
    (l : List Pos) (h : ValidRoute c s p l) :
    pathCost c (l ++ [n]) = pathCost c l + stepCost c :=
  pathCost_append_single c l p n h.2.2

/-- Consistency chained along a path: the heuristic at the head is at
most the path cost plus the heuristic at the last position. -/
theorem chain_bound (c : CityState) (hf : Pos → ℚ)
    (hcons : ∀ p q, q ∈ getNeighbors c p → hf p ≤ stepCost c + hf q) :
    ∀ (l : List Pos) (u z : Pos), isPathB c l = true →
      l.head? = some u → l.getLast? = some z →
      hf u ≤ pathCost c l + hf z
  | [] => by intro u z h; exact absurd h (by simp [isPathB])
  | [x] => by
    intro u z _ hu hz
    obtain rfl : x = u := by simpa using hu
    obtain rfl : x = z := by simpa using hz
    show hf x ≤ 0 + hf x
    rw [zero_add]
  | x :: y :: rest => by
    intro u z h hu hz
    obtain rfl : x = u := by simpa using hu
    rw [isPathB_cons_cons, Bool.and_eq_true] at h
    have h1 : hf x ≤ stepCost c + hf y :=
      hcons x y ((contains_iff_mem _ _).mp h.1)
    have h2 : hf y ≤ pathCost c (y :: rest) + hf z :=
      chain_bound c hf hcons (y :: rest) y z h.2 rfl
        (by simpa [List.getLast?_cons_cons] using hz)
    rw [pathCost_cons_cons]
    linarith

/-! ### popMinEntry lemmas -/

theorem popMinEntry_none (l : List Entry) (h : popMinEntry l = none) :
    l = [] := by
  cases l with
  | nil => rfl
  | cons e rest =>
    rw [popMinEntry] at h
    cases h2 : popMinEntry rest with
    | none =>
      rw [h2] at h
      exact Option.noConfusion h
    | some m =>
      obtain ⟨m1, rest'⟩ := m
      rw [h2] at h
      dsimp only at h
      by_cases hle : e.1 ≤ m1.1
      · rw [if_pos hle] at h; exact Option.noConfusion h
      · rw [if_neg hle] at h; exact Option.noConfusion h

theorem popMinEntry_perm (l : List Entry) (e : Entry) (rest : List Entry)
    (h : popMinEntry l = some (e, rest)) : l.Perm (e :: rest) := by
  induction l generalizing e rest with
  | nil => exact Option.noConfusion h
  | cons a tail ih =>
    rw [popMinEntry] at h
    cases h2 : popMinEntry tail with
    | none =>
      rw [h2] at h
      obtain rfl := popMinEntry_none tail h2
      obtain ⟨rfl, rfl⟩ : a = e ∧ ([] : List Entry) = rest := by
        simpa using h
      exact List.Perm.refl _
    | some m =>
      obtain ⟨m1, rest'⟩ := m
      rw [h2] at h
      dsimp only at h
      by_cases hle : a.1 ≤ m1.1
      · rw [if_pos hle] at h
        obtain ⟨rfl, rfl⟩ : a = e ∧ tail = rest := by simpa using h
        exact List.Perm.refl _
      · rw [if_neg hle] at h
        obtain ⟨rfl, rfl⟩ : m1 = e ∧ a :: rest' = rest := by simpa using h
        exact ((ih m1 rest' h2).cons a).trans (List.Perm.swap m1 a rest')

theorem popMinEntry_min (l : List Entry) (e : Entry) (rest : List Entry)
    (h : popMinEntry l = some (e, rest)) : ∀ e' ∈ l, e.1 ≤ e'.1 := by
  induction l generalizing e rest with
  | nil => exact Option.noConfusion h
  | cons a tail ih =>
    rw [popMinEntry] at h
    cases h2 : popMinEntry tail with
    | none =>
      rw [h2] at h
      obtain rfl := popMinEntry_none tail h2
      obtain ⟨rfl, rfl⟩ : a = e ∧ ([] : List Entry) = rest := by
        simpa using h
      intro e' he'
      obtain rfl : e' = a := by simpa using he'
      exact le_refl _
    | some m =>
      obtain ⟨m1, rest'⟩ := m
      rw [h2] at h
      dsimp only at h
      by_cases hle : a.1 ≤ m1.1
      · rw [if_pos hle] at h
        obtain ⟨rfl, rfl⟩ : a = e ∧ tail = rest := by simpa using h
        intro e' he'
        rcases List.mem_cons.mp he' with rfl | he'
        · exact le_refl _
        · exact le_trans hle (ih m1 rest' h2 e' he')
      · rw [if_neg hle] at h
        obtain ⟨rfl, rfl⟩ : m1 = e ∧ a :: rest' = rest := by simpa using h
        intro e' he'
        rcases List.mem_cons.mp he' with rfl | he'
        · exact le_of_not_le hle
        · exact ih m1 rest' h2 e' he'

/-! ### Reachability through the frontier and pop optimality -/

/-- Walking a path forward from a position with a recorded cost bound:
some position on the path is unvisited, has a recorded cost, and the
recorded cost plus the remaining path cost is bounded by the bound plus
the whole path cost. -/
theorem reach_aux (c : CityState) (s goal : Pos) (hf : Pos → ℚ)
    (frontier : List Entry) (visited : List Pos) (csf : Pos → Option ℚ)
    (inv : SearchInv c s goal hf frontier visited csf) :
    ∀ (tail : List Pos) (p : Pos) (gp B : ℚ) (z : Pos),
      csf p = some gp → gp ≤ B → isPathB c (p :: tail) = true →
      (p :: tail).getLast? = some z → z ∉ visited →
      ∃ u gu suffix, u ∉ visited ∧ csf u = some gu ∧
        isPathB c (u :: suffix) = true ∧
        (u :: suffix).getLast? = some z ∧
        gu + pathCost c (u :: suffix) ≤ B + pathCost c (p :: tail) := by
  intro tail
  induction tail with
  | nil =>
    intro p gp B z hgp hle hpath hlast hz
    obtain rfl : p = z := by simpa using hlast
    refine ⟨p, gp, [], hz, hgp, hpath, by simp, ?_⟩
    show gp + pathCost c [p] ≤ B + pathCost c [p]
    linarith
  | cons m tail' ih =>
    intro p gp B z hgp hle hpath hlast hz
    rw [isPathB_cons_cons, Bool.and_eq_true] at hpath
    have hm : m ∈ getNeighbors c p := (contains_iff_mem _ _).mp hpath.1
    have hlast' : (m :: tail').getLast? = some z := by
      simpa [List.getLast?_cons_cons] using hlast
    by_cases hp : p ∈ visited
    · obtain ⟨gm, hgm, hgmle⟩ := inv.visitedNbr p hp gp hgp m hm
      obtain ⟨u, gu, suffix, h1, h2, h3, h4, h5⟩ :=
        ih m gm (B + stepCost c) z hgm (by linarith) hpath.2 hlast' hz
      refine ⟨u, gu, suffix, h1, h2, h3, h4, ?_⟩
      rw [pathCost_cons_cons]
      linarith
    · refine ⟨p, gp, m :: tail', hp, hgp, ?_, hlast, by linarith⟩
      rw [isPathB_cons_cons, Bool.and_eq_true]
      exact ⟨hpath.1, hpath.2⟩

/-- Any valid route to an unvisited target passes through an unvisited
position whose recorded cost plus a remaining walkable suffix to the
target stays within the route's cost. -/
theorem reach_lemma (c : CityState) (s goal : Pos) (hf : Pos → ℚ)
    (frontier : List Entry) (visited : List Pos) (csf : Pos → Option ℚ)
    (inv : SearchInv c s goal hf frontier visited csf) (z : Pos)
    (q : List Pos) (hq : ValidRoute c s z q) (hz : z ∉ visited) :
    ∃ u gu suffix, u ∉ visited ∧ csf u = some gu ∧
      isPathB c (u :: suffix) = true ∧
      (u :: suffix).getLast? = some z ∧
      gu + pathCost c (u :: suffix) ≤ pathCost c q := by
  obtain ⟨hpath, hhead, hlast⟩ := hq
  cases q with
  | nil => exact absurd hhead (by simp)
  | cons a tail =>
    have has : a = s := by simpa using hhead
    have hcsfa : csf a = some 0 := by rw [has]; exact inv.startCsf
    obtain ⟨u, gu, suffix, h1, h2, h3, h4, h5⟩ :=
      reach_aux c s goal hf frontier visited csf inv tail a 0 0 z
        hcsfa (le_refl 0) hpath hlast hz
    refine ⟨u, gu, suffix, h1, h2, h3, h4, ?_⟩
    linarith

/-- When the loop pops a minimal entry at an unvisited position, the
entry's carried path is a valid route of minimal cost among all routes
to that position, and cost_so_far records exactly that cost. -/
theorem popped_optimal (c : CityState) (s goal : Pos) (hf : Pos → ℚ)
    (frontier : List Entry) (visited : List Pos) (csf : Pos → Option ℚ)
    (e : Entry) (rest : List Entry)
    (hcons : ∀ p q, q ∈ getNeighbors c p → hf p ≤ stepCost c + hf q)
    (hnn : ∀ p, 0 ≤ hf p)
    (inv : SearchInv c s goal hf frontier visited csf)
    (hpop : popMinEntry frontier = some (e, rest))
    (hunvis : e.2.1 ∉ visited) :
    ValidRoute c s e.2.1 e.2.2 ∧
    (∀ q, ValidRoute c s e.2.1 q → pathCost c e.2.2 ≤ pathCost c q) ∧
    csf e.2.1 = some (pathCost c e.2.2) := by
  have hperm := popMinEntry_perm frontier e rest hpop
  have hemem : e ∈ frontier := hperm.mem_iff.mpr (List.mem_cons_self e rest)
  have hroute := inv.entryRoute e hemem
  have hopt : ∀ q, ValidRoute c s e.2.1 q →
      pathCost c e.2.2 ≤ pathCost c q := by
    intro q hq
    obtain ⟨u, gu, suffix, hu1, hu2, hu3, hu4, hu5⟩ :=
      reach_lemma c s goal hf frontier visited csf inv e.2.1 q hq hunvis
    obtain ⟨eu, heumem, heupos, heucost⟩ := inv.csfWitness u gu hu2 hu1
    have hgu_nonneg : 0 ≤ gu := by
      obtain ⟨qr, _, hqr⟩ := inv.csfRealized u gu hu2
      rw [← hqr]
      exact pathCost_nonneg c qr
    have hpru : eu.1 ≤ gu + hf u := by
      rcases inv.entryPr eu heumem with hpr | ⟨_, _, hpr0⟩
      · rw [heupos, heucost] at hpr
        exact le_of_eq hpr
      · rw [hpr0]
        exact add_nonneg hgu_nonneg (hnn u)
    have hmin : e.1 ≤ eu.1 := popMinEntry_min frontier e rest hpop eu heumem
    have hch : hf u ≤ pathCost c (u :: suffix) + hf e.2.1 :=
      chain_bound c hf hcons (u :: suffix) u e.2.1 hu3 rfl hu4
    have hup : e.1 ≤ pathCost c q + hf e.2.1 := by linarith
    rcases inv.entryPr e hemem with hpr | ⟨_, hpath_s, _⟩
    · rw [hpr] at hup
      linarith
    · rw [hpath_s]
      exact pathCost_nonneg c q
  refine ⟨hroute, hopt, ?_⟩
  obtain ⟨g, hg, hgle⟩ := inv.entryCsf e hemem
  obtain ⟨qr, hqr_route, hqr_cost⟩ := inv.csfRealized e.2.1 g hg
  have hge : pathCost c e.2.2 ≤ g := by
    rw [← hqr_cost]
    exact hopt qr hqr_route
  have hgeq : g = pathCost c e.2.2 := le_antisymm hgle hge
  rw [hg, hgeq]

/-! ### Preservation of the relaxation invariant -/

/-- A pushed neighbour (new, or strictly improved) preserves the
relaxation invariant. -/
theorem relax_push (c : CityState) (s : Pos) (hf : Pos → ℚ) (pos : Pos)
    (g0 : ℚ) (path : List Pos) (visited : List Pos) (ns' : List Pos)
    (n : Pos) (fr : List Entry) (csf : Pos → Option ℚ)
    (hroute : ValidRoute c s pos path)
    (hg0cost : pathCost c path = g0)
    (hposnv : pos ∉ visited)
    (hn_nbr : n ∈ getNeighbors c pos)
    (hinv : RelaxInv c s hf pos g0 visited (n :: ns') fr csf)
    (hcase : csf n = none ∨
      ∃ gn, csf n = some gn ∧ g0 + stepCost c < gn) :
    RelaxInv c s hf pos g0 visited ns'
      (fr ++ [(g0 + stepCost c + hf n, n, path ++ [n])])
      (fun x => if x = n then some (g0 + stepCost c) else csf x) := by
  have hn_ne_pos : n ≠ pos := getNeighbors_ne c pos n hn_nbr
  have hroute_new : ValidRoute c s n (path ++ [n]) :=
    validRoute_extend c s pos n path hroute hn_nbr
  have hcost_new : pathCost c (path ++ [n]) = g0 + stepCost c := by
    rw [validRoute_cost_extend c s pos n path hroute, hg0cost]
  have hn_unvis : n ∉ visited := by
    intro hmem
    obtain ⟨g', hg', hmin'⟩ := hinv.visitedMin n (Or.inr hmem)
    rcases hcase with hnone | ⟨gn, hgn, hlt⟩
    · rw [hnone] at hg'
      exact Option.noConfusion hg'
    · have : g' = gn := by rw [hg'] at hgn; exact Option.some.inj hgn
      subst this
      have := hmin' (path ++ [n]) hroute_new
      rw [hcost_new] at this
      linarith
  have hn_ne_s : n ≠ s := by
    intro rfl_ns
    subst rfl_ns
    rcases hcase with hnone | ⟨gn, hgn, hlt⟩
    · rw [hinv.startCsf] at hnone
      exact Option.noConfusion hnone
    · have : gn = 0 := by
        rw [hinv.startCsf] at hgn
        exact (Option.some.inj hgn).symm
      subst this
      have h1 : 0 ≤ g0 := hg0cost ▸ pathCost_nonneg c path
      have h2 := stepCost_pos c
      linarith
  refine ⟨?_, ?_, ?_, ?_, ?_, ?_, ?_, ?_, ?_⟩
  · -- posCsf
    rw [if_neg (Ne.symm hn_ne_pos)]
    exact hinv.posCsf
  · -- entryRoute
    intro e he
    rcases List.mem_append.mp he with he | he
    · exact hinv.entryRoute e he
    · obtain rfl : e = (g0 + stepCost c + hf n, n, path ++ [n]) := by
        simpa using he
      exact hroute_new
  · -- entryCsf
    intro e he
    rcases List.mem_append.mp he with he | he
    · obtain ⟨g, hg, hgle⟩ := hinv.entryCsf e he
      by_cases hpe : e.2.1 = n
      · rcases hcase with hnone | ⟨gn, hgn, hlt⟩
        · rw [hpe, hnone] at hg
          exact Option.noConfusion hg
        · rw [hpe] at hg
          have hggn : g = gn := by rw [hg] at hgn; exact Option.some.inj hgn
          refine ⟨g0 + stepCost c, by rw [hpe, if_pos rfl], ?_⟩
          subst hggn
          linarith
      · exact ⟨g, by rw [if_neg hpe]; exact hg, hgle⟩
    · obtain rfl : e = (g0 + stepCost c + hf n, n, path ++ [n]) := by
        simpa using he
      exact ⟨g0 + stepCost c, by rw [if_pos rfl], le_of_eq hcost_new.symm⟩
  · -- entryPr
    intro e he
    rcases List.mem_append.mp he with he | he
    · exact hinv.entryPr e he
    · obtain rfl : e = (g0 + stepCost c + hf n, n, path ++ [n]) := by
        simpa using he
      left
      show g0 + stepCost c + hf n = pathCost c (path ++ [n]) + hf n
      rw [hcost_new]
  · -- csfWitness
    intro p g hg hp_pos hp_vis
    by_cases hpn : p = n
    · rw [if_pos hpn] at hg
      obtain rfl : g0 + stepCost c = g := Option.some.inj hg
      exact ⟨(g0 + stepCost c + hf n, n, path ++ [n]), by simp, hpn.symm,
        hcost_new⟩
    · rw [if_neg hpn] at hg
      obtain ⟨e, he, hep, hec⟩ := hinv.csfWitness p g hg hp_pos hp_vis
      exact ⟨e, List.mem_append.mpr (Or.inl he), hep, hec⟩
  · -- csfRealized
    intro p g hg
    by_cases hpn : p = n
    · rw [if_pos hpn] at hg
      obtain rfl : g0 + stepCost c = g := Option.some.inj hg
      rw [hpn]
      exact ⟨path ++ [n], hroute_new, hcost_new⟩
    · rw [if_neg hpn] at hg
      exact hinv.csfRealized p g hg
  · -- visitedMin
    intro p hp
    have hpn : p ≠ n := by
      rcases hp with rfl | hp
      · exact Ne.symm hn_ne_pos
      · intro h
        rw [h] at hp
        exact hn_unvis hp
    obtain ⟨g, hg, hmin⟩ := hinv.visitedMin p hp
    exact ⟨g, by rw [if_neg hpn]; exact hg, hmin⟩
  · -- visitedNbr
    intro p hp gp hgp m hm hcond
    have hpn : p ≠ n := by
      rcases hp with rfl | hp
      · exact Ne.symm hn_ne_pos
      · intro h
        rw [h] at hp
        exact hn_unvis hp
    rw [if_neg hpn] at hgp
    by_cases hmn : m = n
    · subst hmn
      refine ⟨g0 + stepCost c, by rw [if_pos rfl], ?_⟩
      rcases hp with rfl | hpv
      · have hgpg0 : gp = g0 := by
          rw [hinv.posCsf] at hgp
          exact (Option.some.inj hgp).symm
        rw [hgpg0]
      · have hp_ne_pos : p ≠ pos := by
          intro h
          rw [h] at hpv
          exact hposnv hpv
        obtain ⟨gnold, hgnold, hleold⟩ := hinv.visitedNbr p (Or.inr hpv)
          gp hgp m hm (fun h => absurd h hp_ne_pos)
        rcases hcase with hnone | ⟨gn, hgn, hlt⟩
        · rw [hnone] at hgnold
          exact absurd hgnold (by simp)
        · have : gnold = gn := by
            rw [hgnold] at hgn
            exact Option.some.inj hgn
          subst this
          linarith
    · have hmem' : p = pos → m ∉ n :: ns' := by
        intro hppos hmem
        rcases List.mem_cons.mp hmem with h | h
        · exact hmn h
        · exact hcond hppos h
      obtain ⟨gm, hgm, hle⟩ := hinv.visitedNbr p hp gp hgp m hm hmem'
      exact ⟨gm, by rw [if_neg hmn]; exact hgm, hle⟩
  · -- startCsf
    rw [if_neg (Ne.symm hn_ne_s)]
    exact hinv.startCsf

/-- A skipped neighbour (already at least as cheap) preserves the
relaxation invariant: its recorded cost certifies the relaxation for
the expanded position. -/
theorem relax_skip (c : CityState) (s : Pos) (hf : Pos → ℚ) (pos : Pos)
    (g0 : ℚ) (visited : List Pos) (ns' : List Pos) (n : Pos)
    (fr : List Entry) (csf : Pos → Option ℚ) (gn : ℚ)
    (hposnv : pos ∉ visited)
    (hgn : csf n = some gn) (hskip : gn ≤ g0 + stepCost c)
    (hinv : RelaxInv c s hf pos g0 visited (n :: ns') fr csf) :
    RelaxInv c s hf pos g0 visited ns' fr csf := by
  refine ⟨hinv.posCsf, hinv.entryRoute, hinv.entryCsf, hinv.entryPr,
    hinv.csfWitness, hinv.csfRealized, hinv.visitedMin, ?_, hinv.startCsf⟩
  intro p hp gp hgp m hm hcond
  by_cases hmn : m = n
  · rcases hp with rfl | hpv
    · have hgpg0 : gp = g0 := by
        rw [hinv.posCsf] at hgp
        exact (Option.some.inj hgp).symm
      refine ⟨gn, by rw [hmn]; exact hgn, ?_⟩
      rw [hgpg0]
      exact hskip
    · have hp_ne_pos : p ≠ pos := by
        intro h
        rw [h] at hpv
        exact hposnv hpv
      exact hinv.visitedNbr p (Or.inr hpv) gp hgp m hm
        (fun h => absurd h hp_ne_pos)
  · have hmem' : p = pos → m ∉ n :: ns' := by
      intro hppos hmem
      rcases List.mem_cons.mp hmem with h | h
      · exact hmn h
      · exact hcond hppos h
    exact hinv.visitedNbr p hp gp hgp m hm hmem'

/-- Scanning the whole neighbour list preserves the relaxation
invariant, ending with an empty remaining list. -/
theorem relax_step (c : CityState) (s : Pos) (hf : Pos → ℚ) (pos : Pos)
    (g0 : ℚ) (path : List Pos) (visited : List Pos)
    (hroute : ValidRoute c s pos path)
    (hg0cost : pathCost c path = g0)
    (hposnv : pos ∉ visited) :
    ∀ (ns : List Pos) (fr : List Entry) (csf : Pos → Option ℚ),
      (∀ n ∈ ns, n ∈ getNeighbors c pos) → ns.Nodup →
      RelaxInv c s hf pos g0 visited ns fr csf →
      RelaxInv c s hf pos g0 visited []
        (relaxLoop c hf pos path ns fr csf).1
        (relaxLoop c hf pos path ns fr csf).2 := by
  intro ns
  induction ns with
  | nil =>
    intro fr csf _ _ hinv
    exact hinv
  | cons n ns' ih =>
    intro fr csf hns hnd hinv
    have hn_nbr : n ∈ getNeighbors c pos := hns n (List.mem_cons_self n ns')
    have hnd' := (List.nodup_cons.mp hnd).2
    have hns' : ∀ m ∈ ns', m ∈ getNeighbors c pos :=
      fun m hm => hns m (List.mem_cons_of_mem n hm)
    cases hcsfn : csf n with
    | none =>
      have hstep : relaxLoop c hf pos path (n :: ns') fr csf =
          relaxLoop c hf pos path ns'
            (fr ++ [(g0 + stepCost c + hf n, n, path ++ [n])])
            (fun x => if x = n then some (g0 + stepCost c) else csf x) := by
        simp only [relaxLoop, hcsfn, hinv.posCsf, Option.getD_some, getCost]
      rw [hstep]
      exact ih _ _ hns' hnd'
        (relax_push c s hf pos g0 path visited ns' n fr csf hroute
          hg0cost hposnv hn_nbr hinv (Or.inl hcsfn))
    | some gn =>
      by_cases hlt : g0 + stepCost c < gn
      · have hstep : relaxLoop c hf pos path (n :: ns') fr csf =
            relaxLoop c hf pos path ns'
              (fr ++ [(g0 + stepCost c + hf n, n, path ++ [n])])
              (fun x => if x = n then some (g0 + stepCost c) else csf x) := by
          simp only [relaxLoop, hcsfn, hinv.posCsf, Option.getD_some, getCost]
          rw [if_pos hlt]
        rw [hstep]
        exact ih _ _ hns' hnd'
          (relax_push c s hf pos g0 path visited ns' n fr csf hroute
            hg0cost hposnv hn_nbr hinv (Or.inr ⟨gn, hcsfn, hlt⟩))
      · have hstep : relaxLoop c hf pos path (n :: ns') fr csf =
            relaxLoop c hf pos path ns' fr csf := by
          simp only [relaxLoop, hcsfn, hinv.posCsf, Option.getD_some, getCost]
          rw [if_neg hlt]
        rw [hstep]
        exact ih _ _ hns' hnd'
          (relax_skip c s hf pos g0 visited ns' n fr csf gn hposnv hcsfn
            (le_of_not_lt hlt) hinv)

/-! ### Bridging the loop invariant across one iteration -/

/-- Popping an already-visited entry preserves the main invariant on
the remaining frontier. -/
theorem searchInv_skip (c : CityState) (s goal : Pos) (hf : Pos → ℚ)
    (frontier : List Entry) (visited : List Pos) (csf : Pos → Option ℚ)
    (e : Entry) (rest : List Entry)
    (inv : SearchInv c s goal hf frontier visited csf)
    (hpop : popMinEntry frontier = some (e, rest))
    (hvis : e.2.1 ∈ visited) :
    SearchInv c s goal hf rest visited csf := by
  have hperm := popMinEntry_perm frontier e rest hpop
  have hsub : ∀ x ∈ rest, x ∈ frontier :=
    fun x hx => hperm.mem_iff.mpr (List.mem_cons_of_mem e hx)
  refine ⟨fun x hx => inv.entryRoute x (hsub x hx),
    fun x hx => inv.entryCsf x (hsub x hx),
    fun x hx => inv.entryPr x (hsub x hx), ?_, inv.csfRealized,
    inv.visitedMin, inv.visitedNbr, inv.startCsf, inv.goalFresh⟩
  intro p g hg hp
  obtain ⟨e', he', hep, hec⟩ := inv.csfWitness p g hg hp
  rcases List.mem_cons.mp (hperm.mem_iff.mp he') with rfl | he'
  · exact absurd (hep ▸ hvis) hp
  · exact ⟨e', he', hep, hec⟩

/-- Popping an unvisited entry establishes the relaxation invariant
for scanning its full neighbour list. -/
theorem searchInv_expand (c : CityState) (s goal : Pos) (hf : Pos → ℚ)
    (frontier : List Entry) (visited : List Pos) (csf : Pos → Option ℚ)
    (e : Entry) (rest : List Entry)
    (inv : SearchInv c s goal hf frontier visited csf)
    (hpop : popMinEntry frontier = some (e, rest))
    (hunvis : e.2.1 ∉ visited)
    (hopt : ∀ q, ValidRoute c s e.2.1 q → pathCost c e.2.2 ≤ pathCost c q)
    (hcsf : csf e.2.1 = some (pathCost c e.2.2)) :
    RelaxInv c s hf e.2.1 (pathCost c e.2.2) visited
      (getNeighbors c e.2.1) rest csf := by
  have hperm := popMinEntry_perm frontier e rest hpop
  have hsub : ∀ x ∈ rest, x ∈ frontier :=
    fun x hx => hperm.mem_iff.mpr (List.mem_cons_of_mem e hx)
  refine ⟨hcsf, fun x hx => inv.entryRoute x (hsub x hx),
    fun x hx => inv.entryCsf x (hsub x hx),
    fun x hx => inv.entryPr x (hsub x hx), ?_, inv.csfRealized, ?_, ?_,
    inv.startCsf⟩
  · intro p g hg hp_pos hp_vis
    obtain ⟨e', he', hep, hec⟩ := inv.csfWitness p g hg hp_vis
    rcases List.mem_cons.mp (hperm.mem_iff.mp he') with rfl | he'
    · exact absurd hep.symm hp_pos
    · exact ⟨e', he', hep, hec⟩
  · intro p hp
    rcases hp with rfl | hp
    · exact ⟨pathCost c e.2.2, hcsf, hopt⟩
    · exact inv.visitedMin p hp
  · intro p hp gp hgp m hm hcond
    rcases hp with rfl | hp
    · exact absurd hm (hcond rfl)
    · exact inv.visitedNbr p hp gp hgp m hm
  -- For a previously visited p the old relaxation certificate applies.

/-- After the whole neighbour list has been scanned, the main
invariant holds with the expanded position marked visited. -/
theorem relaxInv_close (c : CityState) (s goal : Pos) (hf : Pos → ℚ)
    (pos : Pos) (g0 : ℚ) (visited : List Pos) (fr : List Entry)
    (csf : Pos → Option ℚ)
    (hinv : RelaxInv c s hf pos g0 visited [] fr csf)
    (hgoal : goal ∉ visited) (hpos_goal : pos ≠ goal) :
    SearchInv c s goal hf fr (pos :: visited) csf := by
  refine ⟨hinv.entryRoute, hinv.entryCsf, hinv.entryPr, ?_,
    hinv.csfRealized, ?_, ?_, hinv.startCsf, ?_⟩
  · intro p g hg hp
    have h1 : p ≠ pos := fun h => hp (h ▸ List.mem_cons_self pos visited)
    have h2 : p ∉ visited := fun h => hp (List.mem_cons_of_mem pos h)
    exact hinv.csfWitness p g hg h1 h2
  · intro p hp
    exact hinv.visitedMin p (List.mem_cons.mp hp)
  · intro p hp gp hgp m hm
    exact hinv.visitedNbr p (List.mem_cons.mp hp) gp hgp m hm
      (fun _ => List.not_mem_nil m)
  · intro h
    rcases List.mem_cons.mp h with h | h
    · exact hpos_goal h.symm
    · exact hgoal h

/-! ### The loop measure decreases -/

theorem relaxLoop_length (c : CityState) (hf : Pos → ℚ) (pos : Pos)
    (path : List Pos) :
    ∀ (ns : List Pos) (fr : List Entry) (csf : Pos → Option ℚ),
      (relaxLoop c hf pos path ns fr csf).1.length ≤
        fr.length + ns.length := by
  intro ns
  induction ns with
  | nil => intro fr csf; simp [relaxLoop]
  | cons n ns' ih =>
    intro fr csf
    cases hcsfn : csf n with
    | none =>
      have hstep := ih (fr ++
        [((csf pos).getD 0 + getCost c pos n + hf n, n, path ++ [n])])
        (fun x => if x = n then some ((csf pos).getD 0 + getCost c pos n)
                  else csf x)
      simp only [relaxLoop, hcsfn]
      simp only [List.length_append, List.length_cons, List.length_nil] at hstep ⊢
      omega
    | some gn =>
      by_cases hlt : (csf pos).getD 0 + getCost c pos n < gn
      · have hstep := ih (fr ++
          [((csf pos).getD 0 + getCost c pos n + hf n, n, path ++ [n])])
          (fun x => if x = n then some ((csf pos).getD 0 + getCost c pos n)
                    else csf x)
        simp only [relaxLoop, hcsfn]
        rw [if_pos hlt]
        simp only [List.length_append, List.length_cons, List.length_nil] at hstep ⊢
        omega
      · have hstep := ih fr csf
        simp only [relaxLoop, hcsfn]
        rw [if_neg hlt]
        simp only [List.length_cons]
        omega

theorem length_filter_mono {α : Type} (l : List α) (P Q : α → Bool)
    (h : ∀ x ∈ l, Q x = true → P x = true) :
    (l.filter Q).length ≤ (l.filter P).length := by
  induction l with
  | nil => exact le_refl 0
  | cons a tail ih =>
    have ih' := ih (fun x hx => h x (List.mem_cons_of_mem a hx))
    rw [List.filter_cons, List.filter_cons]
    cases hq : Q a
    · rw [if_neg (Bool.false_ne_true)]
      cases hp : P a
      · rw [if_neg (Bool.false_ne_true)]
        exact ih'
      · rw [if_pos rfl, List.length_cons]
        omega
    · have hp : P a = true := h a (List.mem_cons_self a tail) hq
      rw [if_pos rfl, hp, if_pos rfl, List.length_cons, List.length_cons]
      omega

theorem length_filter_lt {α : Type} (l : List α) (P Q : α → Bool)
    (a : α) (ha : a ∈ l) (hPa : P a = true) (hQa : Q a = false)
    (h : ∀ x ∈ l, Q x = true → P x = true) :
    (l.filter Q).length < (l.filter P).length := by
  induction l with
  | nil => exact absurd ha (List.not_mem_nil a)
  | cons b tail ih =>
    have hmono := length_filter_mono tail P Q
      (fun x hx => h x (List.mem_cons_of_mem b hx))
    rw [List.filter_cons, List.filter_cons]
    rcases List.mem_cons.mp ha with rfl | ha'
    · rw [if_neg (show ¬ (Q a = true) by simp [hQa]), if_pos hPa,
        List.length_cons]
      omega
    · have ih' := ih ha' (fun x hx => h x (List.mem_cons_of_mem b hx))
      cases hq : Q b
      · rw [if_neg (Bool.false_ne_true)]
        cases hp : P b
        · rw [if_neg (Bool.false_ne_true)]
          exact ih'
        · rw [if_pos rfl, List.length_cons]
          omega
      · have hp : P b = true := h b (List.mem_cons_self b tail) hq
        rw [if_pos rfl, hp, if_pos rfl, List.length_cons, List.length_cons]
        omega

theorem walkable_mem_allPositions (c : CityState) (p : Pos)
    (hw : c.walkableP p = true) : p ∈ allPositions c := by
  unfold CityState.walkableP CityState.isWalkable at hw
  simp only [Bool.and_eq_true, decide_eq_true_eq] at hw
  obtain ⟨⟨⟨⟨h1, h2⟩, h3⟩, h4⟩, _⟩ := hw
  unfold allPositions
  simp only [List.mem_flatMap, List.mem_map, List.mem_range]
  refine ⟨p.2.toNat, by omega, p.1.toNat, by omega, ?_⟩
  obtain ⟨px, py⟩ := p
  simp only [Prod.mk.injEq]
  exact ⟨by simp at h1 ⊢; omega, by simp at h2 h3 ⊢; omega⟩

theorem unvisitedCount_expand (c : CityState) (visited : List Pos)
    (pos : Pos) (hw : c.walkableP pos = true) (hnv : pos ∉ visited) :
    unvisitedCount c (pos :: visited) < unvisitedCount c visited := by
  unfold unvisitedCount
  refine length_filter_lt (allPositions c) _ _ pos
    (walkable_mem_allPositions c pos hw) ?_ ?_ ?_
  · have hc : visited.contains pos = false := by
      rw [← Bool.not_eq_true]
      intro h
      exact hnv ((contains_iff_mem _ _).mp h)
    rw [hw, hc]
    rfl
  · have hc : (pos :: visited).contains pos = true :=
      (contains_iff_mem _ _).mpr (List.mem_cons_self pos visited)
    rw [hw, hc]
    rfl
  · intro x _ hx
    rw [Bool.and_eq_true, Bool.not_eq_true'] at hx ⊢
    refine ⟨hx.1, ?_⟩
    rw [← Bool.not_eq_true]
    intro h
    have : x ∈ pos :: visited :=
      List.mem_cons_of_mem pos ((contains_iff_mem _ _).mp h)
    have := (contains_iff_mem (pos :: visited) x).mpr this
    rw [hx.2] at this
    exact Bool.noConfusion this

/-- If a route to the goal exists and the goal is unvisited, the
frontier cannot be empty. -/
theorem frontier_nonempty (c : CityState) (s goal : Pos) (hf : Pos → ℚ)
    (frontier : List Entry) (visited : List Pos) (csf : Pos → Option ℚ)
    (inv : SearchInv c s goal hf frontier visited csf)
    (hconn : ∃ q, ValidRoute c s goal q) : frontier ≠ [] := by
  obtain ⟨q, hq⟩ := hconn
  obtain ⟨u, gu, suffix, hu1, hu2, _, _, _⟩ :=
    reach_lemma c s goal hf frontier visited csf inv goal q hq inv.goalFresh
  obtain ⟨e, he, _, _⟩ := inv.csfWitness u gu hu2 hu1
  intro h
  rw [h] at he
  exact (List.not_mem_nil e) he

/-! ### Total correctness of the fuelled best-first loop -/

/-- With a consistent non-negative heuristic vanishing at the goal, the
loop run with fuel exceeding the measure returns a valid route to the
goal of minimal cost, whenever some route exists. -/
theorem searchLoop_correct (c : CityState) (s goal : Pos) (hf : Pos → ℚ)
    (hcons : ∀ p q, q ∈ getNeighbors c p → hf p ≤ stepCost c + hf q)
    (hnn : ∀ p, 0 ≤ hf p) (hgoal0 : hf goal = 0) :
    ∀ (fuel : ℕ) (frontier : List Entry) (visited : List Pos)
      (csf : Pos → Option ℚ),
      SearchInv c s goal hf frontier visited csf →
      searchMeasure c frontier visited < fuel →
      (∃ q, ValidRoute c s goal q) →
      ∃ p, searchLoop c goal hf fuel frontier visited csf =
          some (some p) ∧
        ValidRoute c s goal p ∧
        ∀ q, ValidRoute c s goal q → pathCost c p ≤ pathCost c q := by
  intro fuel
  induction fuel with
  | zero =>
    intro frontier visited csf _ hm
    exact absurd hm (by omega)
  | succ fuel ih =>
    intro frontier visited csf inv hm hconn
    have hne := frontier_nonempty c s goal hf frontier visited csf inv hconn
    cases hpop : popMinEntry frontier with
    | none => exact absurd (popMinEntry_none frontier hpop) hne
    | some pr =>
      obtain ⟨e, rest⟩ := pr
      have hperm := popMinEntry_perm frontier e rest hpop
      have hlen : frontier.length = rest.length + 1 := by
        have := hperm.length_eq
        simpa using this
      by_cases hgoal : e.2.1 = goal
      · have hunvis : e.2.1 ∉ visited := by
          rw [hgoal]
          exact inv.goalFresh
        obtain ⟨hroute, hopt, _⟩ := popped_optimal c s goal hf frontier
          visited csf e rest hcons hnn inv hpop hunvis
        refine ⟨e.2.2, ?_, hgoal ▸ hroute, hgoal ▸ hopt⟩
        simp only [searchLoop, hpop]
        rw [if_pos hgoal]
      · by_cases hvis : visited.contains e.2.1 = true
        · have hstep : searchLoop c goal hf (fuel + 1) frontier visited csf =
              searchLoop c goal hf fuel rest visited csf := by
            simp only [searchLoop, hpop]
            rw [if_neg hgoal, if_pos hvis]
          rw [hstep]
          refine ih rest visited csf
            (searchInv_skip c s goal hf frontier visited csf e rest inv
              hpop ((contains_iff_mem _ _).mp hvis)) ?_ hconn
          unfold searchMeasure at hm ⊢
          omega
        · have hunvis : e.2.1 ∉ visited :=
            fun hmem => hvis ((contains_iff_mem _ _).mpr hmem)
          obtain ⟨hroute, hopt, hcsf⟩ := popped_optimal c s goal hf
            frontier visited csf e rest hcons hnn inv hpop hunvis
          have hrelax0 := searchInv_expand c s goal hf frontier visited
            csf e rest inv hpop hunvis hopt hcsf
          have hrelax := relax_step c s hf e.2.1 (pathCost c e.2.2) e.2.2
            visited hroute rfl hunvis (getNeighbors c e.2.1) rest csf
            (fun n hn => hn) (getNeighbors_nodup c e.2.1) hrelax0
          have hinv2 := relaxInv_close c s goal hf e.2.1
            (pathCost c e.2.2) visited _ _ hrelax inv.goalFresh hgoal
          have hstep : searchLoop c goal hf (fuel + 1) frontier visited csf =
              searchLoop c goal hf fuel
                (relaxLoop c hf e.2.1 e.2.2 (getNeighbors c e.2.1) rest csf).1
                (e.2.1 :: visited)
                (relaxLoop c hf e.2.1 e.2.2 (getNeighbors c e.2.1) rest csf).2 := by
            simp only [searchLoop, hpop]
            rw [if_neg hgoal, if_neg hvis]
          rw [hstep]
          refine ih _ _ _ hinv2 ?_ hconn
          have hflen := relaxLoop_length c hf e.2.1 e.2.2
            (getNeighbors c e.2.1) rest csf
          have hnb := getNeighbors_length_le c e.2.1
          have hwpos : c.walkableP e.2.1 = true :=
            isPathB_last_walkable c e.2.2 hroute.1 e.2.1 hroute.2.2
          have hcnt := unvisitedCount_expand c visited e.2.1 hwpos hunvis
          unfold searchMeasure at hm ⊢
          omega

/-! ### Launching the search loop (claim C3) -/

theorem allPositions_length (c : CityState) :
    (allPositions c).length = c.size * c.size := by
  unfold allPositions
  rw [List.length_flatMap]
  simp only [Function.comp_def]
  have h1 : List.map
      (fun y => ((List.range c.size).map
        (fun x => (Int.ofNat x, Int.ofNat y))).length)
      (List.range c.size) =
      List.map (fun _ => c.size) (List.range c.size) := by
    apply List.map_congr_left
    intro y _
    rw [List.length_map, List.length_range]
  rw [h1, List.map_const', List.sum_replicate, List.length_range,
    smul_eq_mul]

theorem unvisitedCount_le (c : CityState) (visited : List Pos) :
    unvisitedCount c visited ≤ c.size * c.size := by
  unfold unvisitedCount
  rw [← allPositions_length c]
  exact List.length_filter_le _ _

theorem initial_measure_lt (c : CityState) (s : Pos) :
    searchMeasure c [(0, s, [s])] [] < initialFuel c := by
  unfold searchMeasure initialFuel
  have h := unvisitedCount_le c []
  rw [Nat.mul_assoc]
  simp only [List.length_cons, List.length_nil]
  omega

/-- The Manhattan heuristic is consistent for the grid graph: moving to
any neighbour costs at least the drop in heuristic value. -/
theorem heuristic_consistent (c : CityState) (g p q : Pos)
    (h : q ∈ getNeighbors c p) :
    heuristic p g ≤ stepCost c + heuristic q g := by
  have hc := getNeighbors_cases c p q h
  have h1 := stepCost_ge_one c
  unfold heuristic
  have hkey : ((p.1 - g.1).natAbs + (p.2 - g.2).natAbs : ℕ) ≤
      ((q.1 - g.1).natAbs + (q.2 - g.2).natAbs : ℕ) + 1 := by
    rcases hc with ⟨h2, h3⟩ | ⟨h2, h3⟩ | ⟨h2, h3⟩ | ⟨h2, h3⟩ <;> omega
  have hq : (((p.1 - g.1).natAbs + (p.2 - g.2).natAbs : ℕ) : ℚ) ≤
      (((q.1 - g.1).natAbs + (q.2 - g.2).natAbs : ℕ) : ℚ) + 1 := by
    exact_mod_cast hkey
  linarith

theorem heuristic_nonneg (p q : Pos) : 0 ≤ heuristic p q := by
  unfold heuristic
  exact Nat.cast_nonneg _

theorem heuristic_self (p : Pos) : heuristic p p = 0 := by
  unfold heuristic
  simp

/-- The invariant holds at the start: frontier {(0, s, [s])}, empty
visited set, cost_so_far {s: 0}. -/
theorem searchInv_init (c : CityState) (s goal : Pos)
    (hf : Pos → ℚ) (hs : c.walkableP s = true) :
    SearchInv c s goal hf [(0, s, [s])] [] (initCsf s) := by
  have hroute : ValidRoute c s s [s] := by
    refine ⟨?_, rfl, rfl⟩
    rw [isPathB]
    exact hs
  refine ⟨?_, ?_, ?_, ?_, ?_, ?_, ?_, ?_, ?_⟩
  · intro e he
    rw [List.mem_singleton] at he
    subst he
    exact hroute
  · intro e he
    rw [List.mem_singleton] at he
    subst he
    exact ⟨0, by rw [initCsf, if_pos rfl], le_of_eq rfl⟩
  · intro e he
    rw [List.mem_singleton] at he
    subst he
    exact Or.inr ⟨rfl, rfl, rfl⟩
  · intro p g hp _
    rw [initCsf] at hp
    by_cases hps : p = s
    · subst hps
      rw [if_pos rfl] at hp
      have hg : g = 0 := (Option.some.inj hp).symm
      subst hg
      exact ⟨(0, p, [p]), List.mem_singleton.mpr rfl, rfl, rfl⟩
    · rw [if_neg hps] at hp
      exact Option.noConfusion hp
  · intro p g hp
    rw [initCsf] at hp
    by_cases hps : p = s
    · subst hps
      rw [if_pos rfl] at hp
      have hg : g = 0 := (Option.some.inj hp).symm
      subst hg
      exact ⟨[p], hroute, rfl⟩
    · rw [if_neg hps] at hp
      exact Option.noConfusion hp
  · intro p hp
    exact absurd hp (List.not_mem_nil p)
  · intro p hp
    exact absurd hp (List.not_mem_nil p)
  · rw [initCsf, if_pos rfl]
  · exact List.not_mem_nil goal

/-- A full run of the best-first loop from the seeded state returns a
minimal-cost route whenever one exists. -/
theorem searchRun_optimal (c : CityState) (s goal : Pos) (hf : Pos → ℚ)
    (hcons : ∀ p q, q ∈ getNeighbors c p → hf p ≤ stepCost c + hf q)
    (hnn : ∀ p, 0 ≤ hf p) (hgoal0 : hf goal = 0)
    (hs : c.walkableP s = true)
    (hconn : ∃ q, ValidRoute c s goal q) :
    ∃ p, searchLoop c goal hf (initialFuel c) [(0, s, [s])] [] (initCsf s) =
        some (some p) ∧
      ValidRoute c s goal p ∧
      ∀ q, ValidRoute c s goal q → pathCost c p ≤ pathCost c q :=
  searchLoop_correct c s goal hf hcons hnn hgoal0 (initialFuel c)
    [(0, s, [s])] [] (initCsf s) (searchInv_init c s goal hf hs)
    (initial_measure_lt c s) hconn

/-- Claim C3: on the same graph with the same walkable start and goal
joined by some route, _astar and _dijkstra both return a path, and the
two paths have equal total cost (both are cost-optimal). -/
theorem astar_dijkstra_equal_cost (c : CityState) (s g : Pos)
    (hs : c.walkableP s = true)
    (hconn : ∃ q, ValidRoute c s g q) :
    ∃ pa pd, astar c s g = some pa ∧ dijkstra c s g = some pd ∧
      pathCost c pa = pathCost c pd := by
  obtain ⟨pa, ha, hra, hoa⟩ := searchRun_optimal c s g
    (fun p => heuristic p g)
    (fun p q hq => heuristic_consistent c g p q hq)
    (fun p => heuristic_nonneg p g) (heuristic_self g) hs hconn
  obtain ⟨pd, hd, hrd, hod⟩ := searchRun_optimal c s g (fun _ => 0)
    (fun p q _ => by
      have := stepCost_pos c
      linarith)
    (fun _ => le_refl 0) rfl hs hconn
  refine ⟨pa, pd, ?_, ?_, le_antisymm (hoa pd hrd) (hod pa hra)⟩
  · unfold astar
    rw [ha]
    rfl
  · unfold dijkstra
    rw [hd]
    rfl

/-- Witness for C3: in the 2-by-2 all-road city both algorithms find a
route from (0, 0) to (1, 1) of equal cost. -/
theorem astar_dijkstra_equal_cost_witness :
    ∃ pa pd, astar tinyCity (0, 0) (1, 1) = some pa ∧
      dijkstra tinyCity (0, 0) (1, 1) = some pd ∧
      pathCost tinyCity pa = pathCost tinyCity pd :=
  astar_dijkstra_equal_cost tinyCity (0, 0) (1, 1) (by decide)
    ⟨[(0, 0), (1, 0), (1, 1)], by decide, rfl, rfl⟩

end Nexus
